import Mathlib

/-!
# Verification of `publish.py` (sotoalt.dev blog publishing system)

A shallow embedding of the pure core of `publish.py`: the HTML escaper
(`html.escape` as used by the program), the inline formatter
(`process_inline`), the block converter (`markdown_to_html`), the
front-matter parser (`parse_frontmatter`), the reading-time estimator
(`estimate_reading_time`), slug extraction (`get_slug_from_filename`),
HTML metadata recovery (`extract_metadata_from_html`) and the post-list
builder (`get_all_posts`).

Strings are modelled as `List Char` internally (Python `str` is a
sequence of code points, as is `String.data`), with `String`-typed
wrappers keeping the source's names.  File-system scans are modelled by
passing the directory listings — lists of `(filename, contents)` pairs
in glob order — as explicit arguments; `datetime.now()` is passed as an
explicit `today` argument.
-/

namespace Publish

/-- ASCII whitespace recognised by Python's `str.strip()` / `str.split()`
(the inputs here are ASCII; the unicode space classes are not modelled). -/
def pyWS (c : Char) : Bool :=
  c = ' ' ∨ c = '\t' ∨ c = '\n' ∨ c = '\r' ∨ c = '\x0b' ∨ c = '\x0c'

/-- Python `str.strip()`: drop leading and trailing whitespace. -/
def pyStrip (l : List Char) : List Char :=
  ((l.dropWhile pyWS).reverse.dropWhile pyWS).reverse

/-- Python `str.strip(q)` for a single-character argument: drop ALL leading
and trailing occurrences of `q`. -/
def stripCh (q : Char) (l : List Char) : List Char :=
  ((l.dropWhile (· = q)).reverse.dropWhile (· = q)).reverse

/-- Python `str.split("\n")`. -/
def splitNL : List Char → List (List Char)
  | [] => [[]]
  | c :: cs =>
    if c = '\n' then [] :: splitNL cs
    else
      match splitNL cs with
      | [] => [[c]]
      | h :: t => (c :: h) :: t

/-- Number of positions of `l` at which `pat` occurs (as a contiguous
sub-list).  Counts every starting position, so overlapping occurrences all
count. -/
def occurs (pat : List Char) : List Char → Nat
  | [] => 0
  | c :: cs => (if pat.isPrefixOf (c :: cs) then 1 else 0) + occurs pat cs

/-- Whether `pat` occurs in `l` as a contiguous sub-list. -/
def hasSub (pat l : List Char) : Bool :=
  decide (occurs pat l ≠ 0)

/-- `html.escape(s, quote=True)` on one character: `&`, `<`, `>`, `"`, `'`
map to entities, everything else is unchanged.  (CPython implements this as
five sequential `str.replace` calls, replacing `&` first; since no entity
introduces a character that a later replacement rewrites, the net effect is
this character-wise map.) -/
def escapeChar (c : Char) : List Char :=
  if c = '&' then "&amp;".data
  else if c = '<' then "&lt;".data
  else if c = '>' then "&gt;".data
  else if c = '"' then "&quot;".data
  else if c = '\'' then "&#x27;".data
  else [c]

/-- `html.escape(text, quote=True)`, character-wise. -/
def htmlEscapeL : List Char → List Char
  | [] => []
  | c :: cs => escapeChar c ++ htmlEscapeL cs

theorem dropWhile_len_le {α : Type} (p : α → Bool) (l : List α) :
    (l.dropWhile p).length ≤ l.length := by
  induction l with
  | nil => simp
  | cons c cs ih =>
    simp only [List.dropWhile_cons]
    by_cases h : p c
    · simp only [h, if_true, List.length_cons]
      omega
    · simp [h]

theorem tail_len_le {α : Type} (l : List α) : l.tail.length ≤ l.length := by
  cases l <;> simp

/-- `re.sub(r'`([^`]+)`', r'<code>\1</code>', text)`: leftmost,
non-overlapping; on a failed attempt the scan advances one character, as
the regex engine does. -/
def codeSub : List Char → List Char
  | [] => []
  | c :: cs =>
    if c = '`' then
      let body := cs.takeWhile (· ≠ '`')
      let rest := cs.dropWhile (· ≠ '`')
      if body ≠ [] ∧ rest ≠ [] then
        "<code>".data ++ body ++ "</code>".data ++ codeSub rest.tail
      else c :: codeSub cs
    else c :: codeSub cs
termination_by l => l.length
decreasing_by
  all_goals
    (have h1 := dropWhile_len_le (· ≠ '`') cs
     have h2 := tail_len_le (cs.dropWhile (· ≠ '`'))
     simp only [List.length_cons]
     omega)

/-- `re.sub(r'\*\*([^*]+)\*\*', r'<strong>\1</strong>', text)`. -/
def boldStar : List Char → List Char
  | [] => []
  | c :: cs =>
    if c = '*' ∧ "*".data.isPrefixOf cs then
      let body := cs.tail.takeWhile (· ≠ '*')
      let rest := cs.tail.dropWhile (· ≠ '*')
      if body ≠ [] ∧ "**".data.isPrefixOf rest then
        "<strong>".data ++ body ++ "</strong>".data ++ boldStar (rest.drop 2)
      else c :: boldStar cs
    else c :: boldStar cs
termination_by l => l.length
decreasing_by
  all_goals
    (have h1 := dropWhile_len_le (· ≠ '*') cs.tail
     have h2 : ((cs.tail.dropWhile (· ≠ '*')).drop 2).length
         ≤ (cs.tail.dropWhile (· ≠ '*')).length := by
       simp only [List.length_drop]
       omega
     have h3 := tail_len_le cs
     simp only [List.length_cons]
     omega)

/-- `re.sub(r'__([^_]+)__', r'<strong>\1</strong>', text)`. -/
def boldUnder : List Char → List Char
  | [] => []
  | c :: cs =>
    if c = '_' ∧ "_".data.isPrefixOf cs then
      let body := cs.tail.takeWhile (· ≠ '_')
      let rest := cs.tail.dropWhile (· ≠ '_')
      if body ≠ [] ∧ "__".data.isPrefixOf rest then
        "<strong>".data ++ body ++ "</strong>".data ++ boldUnder (rest.drop 2)
      else c :: boldUnder cs
    else c :: boldUnder cs
termination_by l => l.length
decreasing_by
  all_goals
    (have h1 := dropWhile_len_le (· ≠ '_') cs.tail
     have h2 : ((cs.tail.dropWhile (· ≠ '_')).drop 2).length
         ≤ (cs.tail.dropWhile (· ≠ '_')).length := by
       simp only [List.length_drop]
       omega
     have h3 := tail_len_le cs
     simp only [List.length_cons]
     omega)

/-- `re.sub(r'\*([^*]+)\*', r'<em>\1</em>', text)`. -/
def italStar : List Char → List Char
  | [] => []
  | c :: cs =>
    if c = '*' then
      let body := cs.takeWhile (· ≠ '*')
      let rest := cs.dropWhile (· ≠ '*')
      if body ≠ [] ∧ rest ≠ [] then
        "<em>".data ++ body ++ "</em>".data ++ italStar rest.tail
      else c :: italStar cs
    else c :: italStar cs
termination_by l => l.length
decreasing_by
  all_goals
    (have h1 := dropWhile_len_le (· ≠ '*') cs
     have h2 := tail_len_le (cs.dropWhile (· ≠ '*'))
     simp only [List.length_cons]
     omega)

/-- `re.sub(r'_([^_]+)_', r'<em>\1</em>', text)`. -/
def italUnder : List Char → List Char
  | [] => []
  | c :: cs =>
    if c = '_' then
      let body := cs.takeWhile (· ≠ '_')
      let rest := cs.dropWhile (· ≠ '_')
      if body ≠ [] ∧ rest ≠ [] then
        "<em>".data ++ body ++ "</em>".data ++ italUnder rest.tail
      else c :: italUnder cs
    else c :: italUnder cs
termination_by l => l.length
decreasing_by
  all_goals
    (have h1 := dropWhile_len_le (· ≠ '_') cs
     have h2 := tail_len_le (cs.dropWhile (· ≠ '_'))
     simp only [List.length_cons]
     omega)

/-- `re.sub(r'\[([^\]]+)\]\(([^)]+)\)', r'<a href="\2">\1</a>', text)`. -/
def linkSub : List Char → List Char
  | [] => []
  | c :: cs =>
    if c = '[' then
      let label := cs.takeWhile (· ≠ ']')
      let rest := cs.dropWhile (· ≠ ']')
      if label ≠ [] ∧ "](".data.isPrefixOf rest then
        let r2 := rest.drop 2
        let url := r2.takeWhile (· ≠ ')')
        let r3 := r2.dropWhile (· ≠ ')')
        if url ≠ [] ∧ r3 ≠ [] then
          "<a href=\"".data ++ url ++ "\">".data ++ label ++ "</a>".data ++ linkSub r3.tail
        else c :: linkSub cs
      else c :: linkSub cs
    else c :: linkSub cs
termination_by l => l.length
decreasing_by
  all_goals
    (have h1 := dropWhile_len_le (· ≠ ']') cs
     have h2 : ((cs.dropWhile (· ≠ ']')).drop 2).length ≤ (cs.dropWhile (· ≠ ']')).length := by
       simp only [List.length_drop]
       omega
     have h3 := dropWhile_len_le (· ≠ ')') ((cs.dropWhile (· ≠ ']')).drop 2)
     have h4 := tail_len_le (((cs.dropWhile (· ≠ ']')).drop 2).dropWhile (· ≠ ')'))
     simp only [List.length_cons]
     omega)

/-- `text.replace("--", "&mdash;")`. -/
def mdashSub : List Char → List Char
  | [] => []
  | c :: cs =>
    if c = '-' ∧ "-".data.isPrefixOf cs then
      "&mdash;".data ++ mdashSub cs.tail
    else c :: mdashSub cs
termination_by l => l.length
decreasing_by
  all_goals
    (have h := tail_len_le cs
     simp only [List.length_cons]
     omega)

/-- `process_inline` on character lists: escape first, then code spans,
bold (`**`, `__`), italic (`*`, `_`), links, and the em-dash replacement —
in exactly the source's order. -/
def processInlineL (l : List Char) : List Char :=
  mdashSub (linkSub (italUnder (italStar (boldUnder (boldStar (codeSub (htmlEscapeL l)))))))

/-- `process_inline(text)` from `publish.py`. -/
def process_inline (text : String) : String :=
  ⟨processInlineL text.data⟩

example : process_inline "a *b* c" = "a <em>b</em> c" := by
  simp [process_inline, processInlineL, htmlEscapeL, escapeChar, codeSub, boldStar,
    boldUnder, italStar, italUnder, linkSub, mdashSub]

example : process_inline "x & y" = "x &amp; y" := by
  simp [process_inline, processInlineL, htmlEscapeL, escapeChar, codeSub, boldStar,
    boldUnder, italStar, italUnder, linkSub, mdashSub]

example : process_inline "[t](u)" = "<a href=\"u\">t</a>" := by
  simp [process_inline, processInlineL, htmlEscapeL, escapeChar, codeSub, boldStar,
    boldUnder, italStar, italUnder, linkSub, mdashSub]

example : process_inline "a--b" = "a&mdash;b" := by
  simp [process_inline, processInlineL, htmlEscapeL, escapeChar, codeSub, boldStar,
    boldUnder, italStar, italUnder, linkSub, mdashSub]

example : process_inline "**bo**" = "<strong>bo</strong>" := by
  simp [process_inline, processInlineL, htmlEscapeL, escapeChar, codeSub, boldStar,
    boldUnder, italStar, italUnder, linkSub, mdashSub]

example : process_inline "`co`" = "<code>co</code>" := by
  simp [process_inline, processInlineL, htmlEscapeL, escapeChar, codeSub, boldStar,
    boldUnder, italStar, italUnder, linkSub, mdashSub]

/-! ## Block converter (`markdown_to_html`) -/

/-- Search, within the text following `![`, for the split used by the
greedy regexes `!\\[.*\\]\\(.*\\)` / `!\\[(.*)\\]\\((.*)\\)`: the LAST position
where `](` occurs with some `)` after it (the first `.*` is greedy, and a
closing `)` must exist for the whole pattern to match). -/
def imgSplit : List Char → Option (List Char × List Char)
  | [] => none
  | c :: rest =>
    match imgSplit rest with
    | some (a, tl) => some (c :: a, tl)
    | none =>
      if c = ']' ∧ rest.head? = some '(' ∧ ')' ∈ rest.tail then
        some ([], rest.tail)
      else none

/-- `re.match(r'!\\[(.*)\\]\\((.*)\\)', line)`: returns `(alt, src)` where `alt`
is the (greedy-maximal) first group and `src` runs to the LAST `)` in the
remainder (the second `.*` is greedy too; `re.match` anchors at the start
but not at the end, so trailing text is allowed). -/
def imgParse (line : List Char) : Option (List Char × List Char) :=
  if "![".data.isPrefixOf line then
    match imgSplit (line.drop 2) with
    | some (alt, r2) =>
      some (alt, ((r2.reverse.dropWhile (· ≠ ')')).tail).reverse)
    | none => none
  else none

/-- `re.match(r'!\\[.*\\]\\(.*\\)', line)` succeeds. -/
def imageMatch (line : List Char) : Bool :=
  (imgParse line).isSome

/-- Line 111: `f'<figure><img src="{src}" alt="{alt}"><figcaption>{alt}</figcaption></figure>'`
— note `alt` and `src` are interpolated raw, with no escaping. -/
def figLine (alt src : List Char) : List Char :=
  "<figure><img src=\"".data ++ src ++ "\" alt=\"".data ++ alt
    ++ "\"><figcaption>".data ++ alt ++ "</figcaption></figure>".data

/-- `line.strip().startswith("- ") or line.strip().startswith("* ")`,
applied to the already-stripped line. -/
def bulletLine (stripped : List Char) : Bool :=
  "- ".data.isPrefixOf stripped || "* ".data.isPrefixOf stripped

/-- `line.strip() in ("---", "***", "___")`. -/
def hrLine (stripped : List Char) : Bool :=
  stripped = "---".data ∨ stripped = "***".data ∨ stripped = "___".data

/-- The paragraph-continuation test of lines 119:
`lines[i+1].strip() and not lines[i+1].startswith(("#", "-", "*", ">", "```", "![", "---", "***", "___"))`. -/
def paraCont (l : List Char) : Bool :=
  pyStrip l ≠ [] ∧
    ¬("#".data.isPrefixOf l ∨ "-".data.isPrefixOf l ∨ "*".data.isPrefixOf l
      ∨ ">".data.isPrefixOf l ∨ "```".data.isPrefixOf l ∨ "![".data.isPrefixOf l
      ∨ "---".data.isPrefixOf l ∨ "***".data.isPrefixOf l ∨ "___".data.isPrefixOf l)

/-- The main loop of `markdown_to_html` (lines 59-128), producing the
`html_lines` list.  State: the remaining lines, `in_list`, `in_code` and
`code_block`.  The final `if in_list: append("</ul>")` is the `[]` case. -/
def mdLines : List (List Char) → Bool → Bool → List (List Char) → List (List Char)
  | [], inList, _, _ => if inList then ["</ul>".data] else []
  | line :: rest, inList, inCode, codeBuf =>
    if "```".data.isPrefixOf line then
      if inCode then
        ("<pre><code>".data ++ htmlEscapeL (List.intercalate ['\n'] codeBuf)
            ++ "</code></pre>".data)
          :: mdLines rest inList false []
      else mdLines rest inList true codeBuf
    else if inCode then
      mdLines rest inList true (codeBuf ++ [line])
    else
      let stripped := pyStrip line
      let pre : List (List Char) :=
        if inList ∧ ¬ bulletLine stripped then ["</ul>".data] else []
      let inL := inList && bulletLine stripped
      pre ++
      (if "# ".data.isPrefixOf line then mdLines rest inL false []
       else if "## ".data.isPrefixOf line then
         ("<h2>".data ++ processInlineL (line.drop 3) ++ "</h2>".data) :: mdLines rest inL false []
       else if "### ".data.isPrefixOf line then
         ("<h3>".data ++ processInlineL (line.drop 4) ++ "</h3>".data) :: mdLines rest inL false []
       else if hrLine stripped then "<hr>".data :: mdLines rest inL false []
       else if bulletLine stripped then
         (if inList then ([] : List (List Char)) else ["<ul>".data]) ++
           ("<li>".data ++ processInlineL (stripped.drop 2) ++ "</li>".data)
             :: mdLines rest true false []
       else if "> ".data.isPrefixOf line then
         ("<blockquote><p>".data ++ processInlineL (line.drop 2) ++ "</p></blockquote>".data)
           :: mdLines rest inL false []
       else if imageMatch line then
         (match imgParse line with
          | some (alt, src) => [figLine alt src]
          | none => []) ++ mdLines rest inL false []
       else if stripped = [] then ([] : List Char) :: mdLines rest inL false []
       else
         ("<p>".data ++ processInlineL (List.intercalate [' '] (line :: rest.takeWhile paraCont))
             ++ "</p>".data)
           :: mdLines (rest.dropWhile paraCont) inL false [])
termination_by lines => lines.length
decreasing_by
  all_goals
    (have h1 := dropWhile_len_le paraCont rest
     simp only [List.length_cons]
     omega)

/-- `markdown_to_html(md)` from `publish.py`: split into lines, run the
loop, join the produced blocks with `"\n" + 16 spaces`. -/
def markdown_to_html (md : String) : String :=
  ⟨List.intercalate ("\n                ".data) (mdLines (splitNL md.data) false false [])⟩

example : markdown_to_html "## Hi\nSome *text*." =
    "<h2>Hi</h2>\n                <p>Some <em>text</em>.</p>" := by
  simp [markdown_to_html, splitNL, mdLines, pyStrip, bulletLine, hrLine, paraCont, imageMatch,
    imgParse, imgSplit, processInlineL, htmlEscapeL, escapeChar, codeSub, boldStar,
    boldUnder, italStar, italUnder, linkSub, mdashSub, pyWS, List.intercalate]

example : markdown_to_html "```\n# not a header\n```" =
    "<pre><code># not a header</code></pre>" := by
  simp [markdown_to_html, splitNL, mdLines, pyStrip, bulletLine, hrLine, paraCont, imageMatch,
    imgParse, imgSplit, processInlineL, htmlEscapeL, escapeChar, codeSub, boldStar,
    boldUnder, italStar, italUnder, linkSub, mdashSub, pyWS, List.intercalate]

example : markdown_to_html "```\nlost" = "" := by
  simp [markdown_to_html, splitNL, mdLines, List.intercalate]

example : markdown_to_html "![<script>](x)" =
    "<figure><img src=\"x\" alt=\"<script>\"><figcaption><script></figcaption></figure>" := by
  simp [markdown_to_html, splitNL, mdLines, pyStrip, bulletLine, hrLine, paraCont, imageMatch,
    imgParse, imgSplit, figLine, List.intercalate, pyWS]

/-! ## Front-matter parser -/

/-- Split at the leftmost occurrence of `---`: `some (before, after)`,
or `none` when there is no occurrence.  One step of `str.split("---", 2)`. -/
def findMarker : List Char → Option (List Char × List Char)
  | [] => none
  | c :: cs =>
    if "---".data.isPrefixOf (c :: cs) then some ([], (c :: cs).drop 3)
    else
      match findMarker cs with
      | some (a, b) => some (c :: a, b)
      | none => none

/-- `value.strip().strip('"').strip("'")` (line 46).  Note Python's
`str.strip(chars)` removes ALL leading and trailing characters from the
set, matched or not. -/
def stripQuotes (v : List Char) : List Char :=
  stripCh '\'' (stripCh '"' (pyStrip v))

/-- Lines 42-46: for each line of `parts[1].strip().split("\n")` containing
a `:`, record `key.strip() -> value.strip().strip('"').strip("'")`.  The
Python dict is modelled as an association list where a later binding
shadows an earlier one (`fmGet` reads the last binding), which agrees with
`dict` assignment followed by `dict.get`. -/
def headerPairs (header : List Char) : List (List Char × List Char) :=
  (splitNL (pyStrip header)).foldl
    (fun fm line =>
      if ':' ∈ line then
        fm ++ [(pyStrip (line.takeWhile (· ≠ ':')),
                stripQuotes ((line.dropWhile (· ≠ ':')).drop 1))]
      else fm) []

/-- Python `dict.get`: the LAST binding recorded for a key wins. -/
def fmGet : List (List Char × List Char) → List Char → Option (List Char)
  | [], _ => none
  | (k, v) :: rest, key =>
    match fmGet rest key with
    | some r => some r
    | none => if k = key then some v else none

/-- `parse_frontmatter(content)` (lines 33-48) on char lists. -/
def parseFM (content : List Char) : List (List Char × List Char) × List Char :=
  if ¬ "---".data.isPrefixOf content then ([], content)
  else
    match findMarker content with
    | none => ([], content)
    | some (_, r1) =>
      match findMarker r1 with
      | none => ([], content)
      | some (p1, p2) => (headerPairs p1, pyStrip p2)

/-- `parse_frontmatter(content)` from `publish.py`. -/
def parse_frontmatter (content : String) : List (String × String) × String :=
  let r := parseFM content.data
  (r.1.map (fun p => (String.mk p.1, String.mk p.2)), String.mk r.2)

example : parse_frontmatter "hello" = ([], "hello") := by decide

example : parse_frontmatter "---\ntitle: Hello\ndate: 2024-05-01\n---\nbody" =
    ([("title", "Hello"), ("date", "2024-05-01")], "body") := by decide

/-! ## Reading time -/

/-- `len(text.split())`: the number of maximal non-whitespace runs.  The
flag records whether the previous character was inside a word. -/
def wordsCount : List Char → Bool → Nat
  | [], _ => 0
  | c :: cs, inW =>
    if pyWS c then wordsCount cs false
    else (if inW then 0 else 1) + wordsCount cs true

/-- Python `round()` applied to the exact rational `w / 200`: round to
nearest, ties to even (CPython float `round(w/200)` agrees with this exact
rounding: the tie cases `w = 200k + 100` give `k + 0.5`, exactly
representable in binary floating point). -/
def roundDiv200 (w : Nat) : Nat :=
  if w % 200 < 100 then w / 200
  else if 100 < w % 200 then w / 200 + 1
  else if w / 200 % 2 = 0 then w / 200 else w / 200 + 1

/-- `estimate_reading_time(text)` (lines 158-161): `max(1, round(words / 200))`. -/
def estimate_reading_time (text : String) : Nat :=
  max 1 (roundDiv200 (wordsCount text.data false))

example : estimate_reading_time "one two three" = 1 := by decide

/-! ## Slugs and dates -/

/-- `Path(name).stem`: remove the final `.suffix` when the last `.` sits at
an index `i` with `0 < i < len - 1` (pathlib's rule), else keep the name. -/
def pyStem (name : List Char) : List Char :=
  let r := name.reverse
  let p := r.takeWhile (· ≠ '.')
  let q := r.dropWhile (· ≠ '.')
  if q = [] then name
  else if p = [] then name
  else if q.tail = [] then name
  else (q.tail).reverse

example : pyStem "2024-01-01-x.md".data = "2024-01-01-x".data := by decide
example : pyStem ".hidden".data = ".hidden".data := by decide

/-- `re.match(r'\d{4}-\d{2}-\d{2}-(.+)', stem)` from
`get_slug_from_filename` (line 186): strips a leading date prefix. -/
def dateSlugSplit : List Char → Option (List Char)
  | y1 :: y2 :: y3 :: y4 :: '-' :: m1 :: m2 :: '-' :: d1 :: d2 :: '-' :: rest =>
    if y1.isDigit ∧ y2.isDigit ∧ y3.isDigit ∧ y4.isDigit ∧ m1.isDigit ∧ m2.isDigit
        ∧ d1.isDigit ∧ d2.isDigit ∧ rest ≠ [] then
      some rest
    else none
  | _ => none

/-- `get_slug_from_filename(filename)` (lines 182-189) on char lists. -/
def slugL (filename : List Char) : List Char :=
  let stem := pyStem filename
  match dateSlugSplit stem with
  | some rest => rest
  | none => stem

/-- `get_slug_from_filename(filename)` from `publish.py`. -/
def get_slug_from_filename (filename : String) : String :=
  String.mk (slugL filename.data)

example : get_slug_from_filename "2024-01-01-x.md" = "x" := by decide
example : get_slug_from_filename "notes.md" = "notes" := by decide

/-- `re.match(r'(\d{4}-\d{2}-\d{2})-', md_file.name)` (line 307): the date
prefix of a filename, when present. -/
def datePrefixOf : List Char → Option (List Char)
  | y1 :: y2 :: y3 :: y4 :: '-' :: m1 :: m2 :: '-' :: d1 :: d2 :: '-' :: _ =>
    if y1.isDigit ∧ y2.isDigit ∧ y3.isDigit ∧ y4.isDigit ∧ m1.isDigit ∧ m2.isDigit
        ∧ d1.isDigit ∧ d2.isDigit then
      some [y1, y2, y3, y4, '-', m1, m2, '-', d1, d2]
    else none
  | _ => none

/-- `slug.replace("-", " ")` (used as the default title). -/
def dashToSpace (l : List Char) : List Char :=
  l.map (fun c => if c = '-' then ' ' else c)

/-! ## Post records -/

inductive Source
  | markdown
  | html
deriving DecidableEq

/-- The record dictionaries built by `get_all_posts` /
`extract_metadata_from_html`.  `body` is present only for markdown-sourced
records, as in the source. -/
structure Post where
  title : List Char
  date : List Char
  description : List Char
  slug : List Char
  file : List Char
  body : Option (List Char)
  source : Source
deriving DecidableEq

/-- `re.search(r'<title>([^<]+) / sotoalt</title>', content)` (line 266):
first position where the pattern matches; the group runs up to the
`\u0020/ sotoalt` suffix. -/
def titleSearch : List Char → Option (List Char)
  | [] => none
  | c :: cs =>
    (if "<title>".data.isPrefixOf (c :: cs) then
      let run := ((c :: cs).drop 7).takeWhile (· ≠ '<')
      if " / sotoalt".data.isSuffixOf run ∧ 10 < run.length
          ∧ "</title>".data.isPrefixOf (((c :: cs).drop 7).drop run.length) then
        some (run.take (run.length - 10))
      else titleSearch cs
    else titleSearch cs)

/-- The literal in the description regex (line 270). -/
def descLit : List Char := "<meta name=\"description\" content=\"".data

/-- `re.search(r'<meta name="description" content="([^"]*)"', content)`. -/
def descSearch : List Char → Option (List Char)
  | [] => none
  | c :: cs =>
    (if descLit.isPrefixOf (c :: cs) then
      let run := ((c :: cs).drop descLit.length).takeWhile (· ≠ '"')
      if ((c :: cs).drop descLit.length).drop run.length ≠ [] then some run
      else descSearch cs
    else descSearch cs)

/-- The literal in the date regex (line 274). -/
def metaLit : List Char := "<p class=\"meta\">".data

/-- `re.search(r'<p class="meta">(\d{4})\.(\d{2})', content)`: the year and
month groups of the first match. -/
def dateSearch : List Char → Option (List Char × List Char)
  | [] => none
  | c :: cs =>
    (if metaLit.isPrefixOf (c :: cs) then
      match (c :: cs).drop metaLit.length with
      | y1 :: y2 :: y3 :: y4 :: '.' :: m1 :: m2 :: _ =>
        if y1.isDigit ∧ y2.isDigit ∧ y3.isDigit ∧ y4.isDigit ∧ m1.isDigit ∧ m2.isDigit then
          some ([y1, y2, y3, y4], [m1, m2])
        else dateSearch cs
      | _ => dateSearch cs
    else dateSearch cs)

/-- `extract_metadata_from_html(html_file)` (lines 260-288); the file is
passed as (name, contents), `slug = html_file.stem`. -/
def extractHtmlMeta (name content : List Char) : Post :=
  let slug := pyStem name
  { title := (titleSearch content).getD (dashToSpace slug)
    date :=
      match dateSearch content with
      | some (y, m) => y ++ "-".data ++ m ++ "-01".data
      | none => "1970-01-01".data
    description := (descSearch content).getD []
    slug := slug
    file := name
    body := none
    source := Source.html }

/-- `extract_metadata_from_html` from `publish.py`. -/
def extract_metadata_from_html (name content : String) : Post :=
  extractHtmlMeta name.data content.data

/-- The markdown-scan record of `get_all_posts` (lines 298-322). -/
def mdRecord (name content : List Char) : Post :=
  let fm := (parseFM content).1
  let slug := slugL name
  let date0 := (fmGet fm "date".data).getD []
  { title := (fmGet fm "title".data).getD (dashToSpace slug)
    date :=
      if date0 = [] then
        match datePrefixOf name with
        | some d => d
        | none => "1970-01-01".data
      else date0
    description := (fmGet fm "description".data).getD []
    slug := slug
    file := name
    body := some (parseFM content).2
    source := Source.markdown }

/-- The html-scan phase of `get_all_posts` (lines 325-331): files whose
stem was already seen are skipped; newly accepted stems are added to the
seen set. -/
def htmlPhase (seen : List (List Char)) : List (List Char × List Char) → List Post
  | [] => []
  | (name, content) :: rest =>
    if pyStem name ∈ seen then htmlPhase seen rest
    else extractHtmlMeta name content :: htmlPhase (pyStem name :: seen) rest

/-- Lexicographic `≤` on code-point sequences: Python string comparison,
as used by `sort(key=lambda p: p["date"])`. -/
def lexLe : List Char → List Char → Bool
  | [], _ => true
  | _ :: _, [] => false
  | a :: as, b :: bs => if a = b then lexLe as bs else decide (a < b)

/-- "`x` may come before `y`" in the descending-by-date order. -/
def dateGe (x y : Post) : Bool := lexLe y.date x.date

/-- Stable insertion for the descending sort: `x` is inserted before the
first element whose date is ≤ its own. -/
def ordIns (x : Post) : List Post → List Post
  | [] => [x]
  | y :: ys => if dateGe x y then x :: y :: ys else y :: ordIns x ys

/-- `posts.sort(key=lambda p: p["date"], reverse=True)` — Python's sort is
stable, and a stable descending sort is unique, so insertion sort is an
exact model. -/
def sortPosts : List Post → List Post
  | [] => []
  | x :: xs => ordIns x (sortPosts xs)

/-- The concatenated two-phase scan list (lines 293-331), before sorting. -/
def scannedPosts (mdFiles htmlFiles : List (List Char × List Char)) : List Post :=
  let mdPosts := mdFiles.map (fun p => mdRecord p.1 p.2)
  mdPosts ++ htmlPhase (mdPosts.map Post.slug) htmlFiles

/-- `get_all_posts()` (lines 291-335): both directory scans are passed as
`(filename, contents)` lists in glob order; missing directories are the
empty list. -/
def getAllPostsL (mdFiles htmlFiles : List (List Char × List Char)) : List Post :=
  sortPosts (scannedPosts mdFiles htmlFiles)

/-- `get_all_posts()` from `publish.py`. -/
def get_all_posts (mdFiles htmlFiles : List (String × String)) : List Post :=
  getAllPostsL (mdFiles.map (fun p => (p.1.data, p.2.data)))
    (htmlFiles.map (fun p => (p.1.data, p.2.data)))

example :
    (get_all_posts [("2024-01-01-x.md", "")] [("x.html", "")]).map Post.slug
      = ["x".data] := by decide

example :
    (get_all_posts [("2024-03-01-a.md", ""), ("2024-01-15-b.md", ""), ("2024-03-01-c.md", "")]
        []).map Post.date
      = ["2024-03-01".data, "2024-03-01".data, "2024-01-15".data] := by decide

/-- The metadata-extraction part of `publish_post` (lines 192-201): the
fields computed before rendering.  `datetime.now().strftime("%Y-%m-%d")`
is passed in as `today`. -/
structure PubMeta where
  title : List Char
  date : List Char
  description : List Char
  slug : List Char
deriving DecidableEq

/-- `publish_post` metadata (lines 197-201): note `date` defaults to
`today`, with no fallback to the filename prefix. -/
def publishMeta (name content today : List Char) : PubMeta :=
  let fm := (parseFM content).1
  let slug := slugL name
  { title := (fmGet fm "title".data).getD (dashToSpace slug)
    date := (fmGet fm "date".data).getD today
    description := (fmGet fm "description".data).getD []
    slug := slug }

/-! ## Claim C9: reading time -/

/-- A 400-word body (400 whitespace-separated words). -/
def words400 : String := String.mk (List.flatten (List.replicate 400 ['w', ' ']))

/-- A 50-word body. -/
def words50 : String := String.mk (List.flatten (List.replicate 50 ['w', ' ']))

theorem roundDiv200_nearest (w m : ℕ) :
    Nat.dist (roundDiv200 w * 200) w ≤ Nat.dist (m * 200) w := by
  have h := Nat.div_add_mod w 200
  have hr : w % 200 < 200 := Nat.mod_lt _ (by omega)
  unfold roundDiv200
  split_ifs <;> simp [Nat.dist] <;> omega

set_option maxRecDepth 8000 in
/-- C9: for every body, the reading-time estimate is the whitespace-split
word count divided by 200 and rounded to a nearest integer (ties broken to
even, as Python's `round` does — either tie choice is "nearest"), floored
at 1; a 400-word body yields 2 and a 50-word body yields 1. -/
theorem c9_reading_time :
    (∀ text : String,
        estimate_reading_time text = max 1 (roundDiv200 (wordsCount text.data false))
        ∧ ∀ m : ℕ,
            Nat.dist (roundDiv200 (wordsCount text.data false) * 200) (wordsCount text.data false)
              ≤ Nat.dist (m * 200) (wordsCount text.data false))
    ∧ estimate_reading_time words400 = 2
    ∧ estimate_reading_time words50 = 1 := by
  refine ⟨fun text => ⟨rfl, fun m => roundDiv200_nearest _ m⟩, ?_, ?_⟩
  · show max 1 (roundDiv200 (wordsCount words400.data false)) = 2
    have h : wordsCount words400.data false = 400 := by decide
    rw [h]
    decide
  · show max 1 (roundDiv200 (wordsCount words50.data false)) = 1
    have h : wordsCount words50.data false = 50 := by decide
    rw [h]
    decide

/-! ## Claim C5: front-matter fallbacks -/

theorem occurs_cons_le (pat : List Char) (c : Char) (cs : List Char) :
    occurs pat cs ≤ occurs pat (c :: cs) := by
  simp only [occurs]
  omega

theorem occurs_drop_le (pat l : List Char) (k : ℕ) :
    occurs pat (l.drop k) ≤ occurs pat l := by
  induction l generalizing k with
  | nil => simp
  | cons c cs ih =>
    cases k with
    | zero => simp
    | succ n =>
      simp only [List.drop_succ_cons]
      exact le_trans (ih n) (occurs_cons_le pat c cs)

theorem findMarker_some_occurs (l : List Char) :
    ∀ a b, findMarker l = some (a, b) → 1 ≤ occurs "---".data l := by
  induction l with
  | nil => intro a b h; simp [findMarker] at h
  | cons c cs ih =>
    intro a b h
    rw [findMarker] at h
    by_cases hp : "---".data.isPrefixOf (c :: cs)
    · simp only [occurs, hp, if_true]
      omega
    · rw [if_neg hp] at h
      rcases hm : findMarker cs with _ | ⟨a', b'⟩
      · rw [hm] at h
        simp at h
      · exact le_trans (ih a' b' hm) (occurs_cons_le _ _ _)

theorem findMarker_of_marker_head (l : List Char) (hp : "---".data.isPrefixOf l) :
    findMarker l = some ([], l.drop 3) := by
  cases l with
  | nil => simp [List.isPrefixOf] at hp
  | cons c cs => rw [findMarker, if_pos hp]

theorem occurs_marker_head (l : List Char) (hp : "---".data.isPrefixOf l) :
    1 + occurs "---".data (l.drop 3) ≤ occurs "---".data l := by
  cases l with
  | nil => simp [List.isPrefixOf] at hp
  | cons c cs =>
    rw [show (c :: cs).drop 3 = cs.drop 2 from rfl, occurs, if_pos hp]
    have h2 := occurs_drop_le "---".data cs 2
    omega

/-- C5: a text that does not start with `---`, or that contains fewer than
two occurrences of `---`, is returned unchanged with empty metadata (and
`parse_frontmatter` is total, so no error is possible). -/
theorem c5_no_frontmatter (t : String)
    (h : ¬ "---".data.isPrefixOf t.data ∨ occurs "---".data t.data < 2) :
    parse_frontmatter t = ([], t) := by
  have hcore : parseFM t.data = ([], t.data) := by
    by_cases hp : "---".data.isPrefixOf t.data
    · rcases h with h | h
      · exact absurd hp h
      · have hfst := findMarker_of_marker_head t.data hp
        have h1 := occurs_marker_head t.data hp
        have hsnd : findMarker (t.data.drop 3) = none := by
          rcases hm : findMarker (t.data.drop 3) with _ | ⟨a', b'⟩
          · rfl
          · have := findMarker_some_occurs _ a' b' hm
            omega
        rw [parseFM, if_neg (not_not_intro hp)]
        simp only [hfst, hsnd]
    · rw [parseFM, if_pos hp]
  have hw : parse_frontmatter t = (([] : List (List Char × List Char)).map
      (fun p => (String.mk p.1, String.mk p.2)), String.mk t.data) := by
    rw [parse_frontmatter, hcore]
  rw [hw]
  cases t
  rfl

/-- C5 witness: `"---\nab"` starts with the marker but contains only one
occurrence; `parse_frontmatter` returns it unchanged. -/
theorem c5_no_frontmatter_witness :
    (¬ "---".data.isPrefixOf "---\nab".data ∨ occurs "---".data "---\nab".data < 2)
    ∧ parse_frontmatter "---\nab" = ([], "---\nab") := by
  refine ⟨Or.inr (by decide), c5_no_frontmatter "---\nab" (Or.inr (by decide))⟩

/-! ## Claim C7: date defaulting -/

/-- C7 counterexample: publishing `2024-01-01-x.md` whose front matter has
no date on a day when `datetime.now()` formats to `2026-10-12` gives the
record date `2026-10-12`, not the filename prefix `2024-01-01` that the
claim requires (which does exist, third conjunct). -/
theorem c7_counterexample :
    (publishMeta "2024-01-01-x.md".data "hi".data "2026-10-12".data).date = "2026-10-12".data
    ∧ "2026-10-12".data ≠ "2024-01-01".data
    ∧ datePrefixOf "2024-01-01-x.md".data = some "2024-01-01".data := by
  refine ⟨by decide, by decide, by decide⟩

/-- C7 (amended): in the post-list scan, a record whose front matter has no
(or an empty) `date` takes the filename's `YYYY-MM-DD` prefix when present
and `1970-01-01` otherwise; but `publish_post` instead defaults a missing
`date` to the current day, ignoring the filename prefix. -/
theorem c7_date_defaulting :
    (∀ name content : List Char,
        (fmGet (parseFM content).1 "date".data = none
          ∨ fmGet (parseFM content).1 "date".data = some []) →
        (mdRecord name content).date
          = match datePrefixOf name with
            | some d => d
            | none => "1970-01-01".data)
    ∧ (∀ name content today : List Char,
        (publishMeta name content today).date
          = (fmGet (parseFM content).1 "date".data).getD today) := by
  constructor
  · intro name content h
    rcases h with h | h <;> simp [mdRecord, h]
  · intro name content today
    rfl

/-- C7 witness: a markdown file with no front-matter date in the scan takes
its date from the filename prefix. -/
theorem c7_date_defaulting_witness :
    (fmGet (parseFM "hi".data).1 "date".data = none
      ∨ fmGet (parseFM "hi".data).1 "date".data = some [])
    ∧ (mdRecord "2024-01-01-x.md".data "hi".data).date = "2024-01-01".data := by
  refine ⟨Or.inl (by decide), ?_⟩
  have h := c7_date_defaulting.1 "2024-01-01-x.md".data "hi".data (Or.inl (by decide))
  rw [h]
  decide

/-! ## Claims C6 and C10: fenced code blocks -/

theorem splitNL_ne_nil (l : List Char) : splitNL l ≠ [] := by
  cases l with
  | nil => simp [splitNL]
  | cons c cs =>
    rw [splitNL]
    by_cases h : c = '\n'
    · simp [h]
    · rcases hm : splitNL cs with _ | ⟨h1, t1⟩ <;> simp [h, hm]

theorem splitNL_no_nl (a : List Char) (h : '\n' ∉ a) : splitNL a = [a] := by
  induction a with
  | nil => rfl
  | cons c cs ih =>
    have hc : c ≠ '\n' := fun hc => h (by simp [hc])
    have hcs : '\n' ∉ cs := fun hm => h (by simp [hm])
    rw [splitNL, if_neg hc, ih hcs]

theorem splitNL_append (a b : List Char) (h : '\n' ∉ a) :
    splitNL (a ++ '\n' :: b) = a :: splitNL b := by
  induction a with
  | nil => simp [splitNL]
  | cons c cs ih =>
    have hc : c ≠ '\n' := fun hc => h (by simp [hc])
    have hcs : '\n' ∉ cs := fun hm => h (by simp [hm])
    rw [List.cons_append, splitNL, if_neg hc, ih hcs]

theorem splitNL_intercalate (ls : List (List Char)) (hne : ls ≠ [])
    (h : ∀ l ∈ ls, '\n' ∉ l) :
    splitNL (List.intercalate ['\n'] ls) = ls := by
  induction ls with
  | nil => exact absurd rfl hne
  | cons x xs ih =>
    cases xs with
    | nil =>
      have h1 : List.intercalate ['\n'] [x] = x := by simp [List.intercalate]
      rw [h1]
      exact splitNL_no_nl x (h x (by simp))
    | cons y ys =>
      have hx : '\n' ∉ x := h x (by simp)
      have hrest : List.intercalate ['\n'] (x :: y :: ys)
          = x ++ '\n' :: List.intercalate ['\n'] (y :: ys) := by
        simp [List.intercalate]
      rw [hrest, splitNL_append _ _ hx,
        ih (by simp) (fun l hl => h l (List.mem_cons_of_mem _ hl))]

theorem mdLines_nil (inList inCode : Bool) (buf : List (List Char)) :
    mdLines [] inList inCode buf = if inList then ["</ul>".data] else [] := by
  rw [mdLines]

theorem mdLines_fence_open (line : List Char) (rest : List (List Char))
    (inList : Bool) (buf : List (List Char)) (hf : "```".data.isPrefixOf line) :
    mdLines (line :: rest) inList false buf = mdLines rest inList true buf := by
  rw [mdLines]
  simp [hf]

theorem mdLines_fence_close (line : List Char) (rest : List (List Char))
    (inList : Bool) (buf : List (List Char)) (hf : "```".data.isPrefixOf line) :
    mdLines (line :: rest) inList true buf
      = ("<pre><code>".data ++ htmlEscapeL (List.intercalate ['\n'] buf)
          ++ "</code></pre>".data) :: mdLines rest inList false [] := by
  rw [mdLines]
  simp [hf]

theorem mdLines_buffer (line : List Char) (rest : List (List Char))
    (inList : Bool) (buf : List (List Char)) (hf : ¬ "```".data.isPrefixOf line) :
    mdLines (line :: rest) inList true buf = mdLines rest inList true (buf ++ [line]) := by
  rw [mdLines]
  simp [hf]

theorem mdCode_discard (ls : List (List Char)) (inList : Bool) (buf : List (List Char))
    (h : ∀ l ∈ ls, ¬ "```".data.isPrefixOf l) :
    mdLines ls inList true buf = if inList then ["</ul>".data] else [] := by
  induction ls generalizing buf with
  | nil => exact mdLines_nil inList true buf
  | cons l ls ih =>
    rw [mdLines_buffer l ls inList buf (h l (by simp))]
    exact ih _ (fun x hx => h x (List.mem_cons_of_mem _ hx))

theorem mdCode_close (ls : List (List Char)) (f2 : List Char) (rest : List (List Char))
    (inList : Bool) (buf : List (List Char))
    (h : ∀ l ∈ ls, ¬ "```".data.isPrefixOf l) (hf2 : "```".data.isPrefixOf f2) :
    mdLines (ls ++ f2 :: rest) inList true buf
      = ("<pre><code>".data ++ htmlEscapeL (List.intercalate ['\n'] (buf ++ ls))
          ++ "</code></pre>".data) :: mdLines rest inList false [] := by
  induction ls generalizing buf with
  | nil =>
    rw [List.nil_append, mdLines_fence_close f2 rest inList buf hf2, List.append_nil]
  | cons l ls ih =>
    rw [List.cons_append, mdLines_buffer l (ls ++ f2 :: rest) inList buf (h l (by simp)),
      ih (buf ++ [l]) (fun x hx => h x (List.mem_cons_of_mem _ hx))]
    simp

/-- C10: a fenced code block opened but never closed is silently discarded:
every line after the opening fence is dropped, no preformatted block is
emitted for it, and (when no list is open) the whole conversion of such a
body is the empty string. -/
theorem c10_unclosed_fence (f : List Char) (inner : List (List Char)) (inList : Bool)
    (hf : "```".data.isPrefixOf f)
    (hin : ∀ l ∈ inner, ¬ "```".data.isPrefixOf l)
    (hnl : ∀ l ∈ f :: inner, '\n' ∉ l) :
    mdLines (f :: inner) inList false [] = (if inList then ["</ul>".data] else [])
    ∧ markdown_to_html (String.mk (List.intercalate ['\n'] (f :: inner))) = "" := by
  have hmain : ∀ b : Bool, mdLines (f :: inner) b false []
      = (if b then ["</ul>".data] else []) := by
    intro b
    rw [mdLines_fence_open f inner b [] hf]
    exact mdCode_discard inner b [] hin
  refine ⟨hmain inList, ?_⟩
  rw [markdown_to_html]
  have hd : (String.mk (List.intercalate ['\n'] (f :: inner))).data
      = List.intercalate ['\n'] (f :: inner) := rfl
  rw [hd, splitNL_intercalate _ (by simp) hnl, hmain false]
  rfl

/-- C10 witness: the body "```\n# a\nhi" (an opening fence never closed)
converts to the empty string — the buffered lines appear nowhere. -/
theorem c10_unclosed_fence_witness :
    ("```".data.isPrefixOf "```".data
      ∧ (∀ l ∈ ["# a".data, "hi".data], ¬ "```".data.isPrefixOf l)
      ∧ (∀ l ∈ "```".data :: ["# a".data, "hi".data], '\n' ∉ l))
    ∧ markdown_to_html (String.mk
        (List.intercalate ['\n'] ("```".data :: ["# a".data, "hi".data]))) = "" := by
  refine ⟨⟨by decide, by decide, by decide⟩, ?_⟩
  exact (c10_unclosed_fence "```".data ["# a".data, "hi".data] false (by decide)
    (by decide) (by decide)).2

/-- C6: every line between two fence lines — whatever it looks like — is
buffered verbatim and emitted as ONE preformatted block holding the
HTML-escaped, newline-joined buffer, with no inline formatting; processing
then resumes after the closing fence with the list/code state unchanged.
The concrete conjunct shows `#`, `-`, `*` emitted literally and `<`
escaped. -/
theorem c6_code_block_opacity :
    (∀ (f1 f2 : List Char) (inner rest : List (List Char)) (inList : Bool),
        "```".data.isPrefixOf f1 → "```".data.isPrefixOf f2 →
        (∀ l ∈ inner, ¬ "```".data.isPrefixOf l) →
        mdLines (f1 :: (inner ++ f2 :: rest)) inList false []
          = ("<pre><code>".data ++ htmlEscapeL (List.intercalate ['\n'] inner)
              ++ "</code></pre>".data) :: mdLines rest inList false [])
    ∧ markdown_to_html "```\n# x\n- y\n*z* <i>\n```"
        = "<pre><code># x\n- y\n*z* &lt;i&gt;</code></pre>" := by
  constructor
  · intro f1 f2 inner rest inList hf1 hf2 hin
    rw [mdLines_fence_open f1 _ inList [] hf1, mdCode_close inner f2 rest inList [] hin hf2]
    simp
  · simp [markdown_to_html, splitNL, mdLines, pyStrip, bulletLine, hrLine, paraCont,
      imageMatch, imgParse, imgSplit, processInlineL, htmlEscapeL, escapeChar, codeSub,
      boldStar, boldUnder, italStar, italUnder, linkSub, mdashSub, pyWS, List.intercalate]

/-- C6 witness: one bullet line between fences is emitted verbatim
(escaped only), and conversion continues after the closing fence. -/
theorem c6_code_block_opacity_witness :
    ("```".data.isPrefixOf "```".data ∧ "```".data.isPrefixOf "```x".data
      ∧ (∀ l ∈ [['-', ' ', 'a']], ¬ "```".data.isPrefixOf l))
    ∧ mdLines ("```".data :: ([['-', ' ', 'a']] ++ "```x".data :: [['h']])) false false []
      = ("<pre><code>".data ++ htmlEscapeL (List.intercalate ['\n'] [['-', ' ', 'a']])
          ++ "</code></pre>".data) :: mdLines [['h']] false false [] := by
  refine ⟨⟨by decide, by decide, by decide⟩, ?_⟩
  exact c6_code_block_opacity.1 "```".data "```x".data [['-', ' ', 'a']] [['h']] false
    (by decide) (by decide) (by decide)

/-! ## Claim C8: header values -/

theorem takeWhile_append_all {α : Type} (p : α → Bool) (a b : List α)
    (h : ∀ c ∈ a, p c = true) :
    List.takeWhile p (a ++ b) = a ++ List.takeWhile p b := by
  induction a with
  | nil => simp
  | cons c cs ih =>
    rw [List.cons_append, List.takeWhile_cons, h c (by simp),
      ih (fun x hx => h x (by simp [hx]))]
    rfl

theorem dropWhile_append_all {α : Type} (p : α → Bool) (a b : List α)
    (h : ∀ c ∈ a, p c = true) :
    List.dropWhile p (a ++ b) = List.dropWhile p b := by
  induction a with
  | nil => simp
  | cons c cs ih =>
    rw [List.cons_append, List.dropWhile_cons, h c (by simp)]
    exact ih (fun x hx => h x (by simp [hx]))

theorem dropWhile_append_stop {α : Type} (p : α → Bool) (a b : List α) (c : α)
    (hc : ¬ p c = true) :
    List.dropWhile p (a ++ c :: b) = List.dropWhile p a ++ c :: b := by
  induction a with
  | nil => simp [List.dropWhile_cons, hc]
  | cons x xs ih =>
    rw [List.cons_append, List.dropWhile_cons, List.dropWhile_cons]
    by_cases hx : p x
    · simp only [hx, if_true]
      exact ih
    · simp [hx]

theorem dropWhile_idem {α : Type} (p : α → Bool) (l : List α) :
    List.dropWhile p (List.dropWhile p l) = List.dropWhile p l := by
  induction l with
  | nil => simp
  | cons c cs ih =>
    rw [List.dropWhile_cons]
    by_cases hc : p c
    · simp only [hc, if_true]
      exact ih
    · simp [List.dropWhile_cons, hc]

theorem mem_of_mem_dropWhile {α : Type} (p : α → Bool) (l : List α) (c : α)
    (h : c ∈ List.dropWhile p l) : c ∈ l := by
  induction l with
  | nil => simp at h
  | cons x xs ih =>
    rw [List.dropWhile_cons] at h
    by_cases hx : p x
    · simp only [hx, if_true] at h
      exact List.mem_cons_of_mem _ (ih h)
    · simpa [hx] using h

theorem pyStrip_cons_ws (c : Char) (l : List Char) (hc : pyWS c = true) :
    pyStrip (c :: l) = pyStrip l := by
  simp [pyStrip, List.dropWhile_cons, hc]

theorem pyStrip_dropWhile (l : List Char) :
    pyStrip (List.dropWhile pyWS l) = pyStrip l := by
  simp [pyStrip, dropWhile_idem]

theorem findMarker_clean (x y : List Char) (hx : ∀ c ∈ x, c ≠ '-') :
    findMarker (x ++ "---".data ++ y) = some (x, y) := by
  induction x with
  | nil =>
    rw [List.nil_append]
    show findMarker ('-' :: '-' :: '-' :: y) = some ([], y)
    rw [findMarker, if_pos (by simp [List.isPrefixOf])]
    rfl
  | cons c cs ih =>
    have hc : c ≠ '-' := hx c (by simp)
    rw [List.cons_append, List.cons_append, findMarker,
      if_neg (by simp [List.isPrefixOf]; intro h; exact absurd h.symm hc)]
    rw [show (cs ++ "---".data) ++ y = cs ++ "---".data ++ y from by simp] at *
    rw [ih (fun a ha => hx a (by simp [ha]))]

/-- C8 counterexample: for the header value `""x""` the stored value is
`x` — both quote layers are stripped, not one — and for the unmatched
leading quote in `"x` the quote IS removed, contradicting the claim. -/
theorem c8_counterexample :
    fmGet (parseFM "---\nk: \"\"x\"\"\n---\nb".data).1 "k".data = some "x".data
    ∧ some "x".data ≠ some "\"x\"".data
    ∧ fmGet (parseFM "---\nk: \"x\n---\nb".data).1 "k".data = some "x".data
    ∧ some "x".data ≠ some "\"x".data := by
  refine ⟨by decide, by decide, by decide, by decide⟩

/-- C8 (amended): a header line `k: v` stores key `k.strip()` and the value
obtained from `v` by trimming surrounding whitespace, then ALL leading and
trailing double-quote characters, then ALL leading and trailing
single-quote characters (so `""x""` loses both layers and an unmatched
leading or trailing quote is removed too); lines without a `:` are
silently ignored. -/
theorem c8_header_value_stripping (k v junk b : List Char)
    (hk : ∀ c ∈ k, c ≠ '\n' ∧ c ≠ '-' ∧ c ≠ ':')
    (hv : ∀ c ∈ v, c ≠ '\n' ∧ c ≠ '-')
    (hj : ∀ c ∈ junk, c ≠ '\n' ∧ c ≠ '-' ∧ c ≠ ':' ∧ ¬ pyWS c)
    (hjne : junk ≠ []) :
    parseFM ("---\n".data ++ k ++ ":".data ++ v ++ "\n".data ++ junk ++ "\n---".data ++ b)
      = ([(pyStrip k, stripQuotes v)], pyStrip b) := by
  have hcontent : "---\n".data ++ k ++ ":".data ++ v ++ "\n".data ++ junk ++ "\n---".data ++ b
      = "---".data
        ++ (('\n' :: (k ++ ':' :: (v ++ '\n' :: (junk ++ ['\n'])))) ++ "---".data ++ b) := by
    simp
  set x2 : List Char := '\n' :: (k ++ ':' :: (v ++ '\n' :: (junk ++ ['\n']))) with hx2
  have hx2clean : ∀ c ∈ x2, c ≠ '-' := by
    intro c hc
    rw [hx2] at hc
    have hcase : c = '\n' ∨ c ∈ k ∨ c = ':' ∨ c ∈ v ∨ c ∈ junk := by
      rcases List.mem_cons.mp hc with h | h
      · exact Or.inl h
      rcases List.mem_append.mp h with h | h
      · exact Or.inr (Or.inl h)
      rcases List.mem_cons.mp h with h | h
      · exact Or.inr (Or.inr (Or.inl h))
      rcases List.mem_append.mp h with h | h
      · exact Or.inr (Or.inr (Or.inr (Or.inl h)))
      rcases List.mem_cons.mp h with h | h
      · exact Or.inl h
      rcases List.mem_append.mp h with h | h
      · exact Or.inr (Or.inr (Or.inr (Or.inr h)))
      · exact Or.inl (List.mem_singleton.mp h)
    rcases hcase with h | h | h | h | h
    · subst h; decide
    · exact (hk c h).2.1
    · subst h; decide
    · exact (hv c h).2
    · exact (hj c h).2.1
  have hfst : findMarker ("---".data ++ (x2 ++ "---".data ++ b))
      = some ([], x2 ++ "---".data ++ b) := by
    have := findMarker_clean [] (x2 ++ "---".data ++ b) (by simp)
    simpa using this
  have hsnd : findMarker (x2 ++ "---".data ++ b) = some (x2, b) :=
    findMarker_clean x2 b hx2clean
  rw [hcontent, parseFM,
    if_neg (not_not_intro (by simp [List.isPrefixOf]))]
  simp only [hfst, hsnd]
  -- it remains to compute the header pairs and the body
  have hbody : pyStrip b = pyStrip b := rfl
  -- pyStrip x2
  have hdwk_sub : ∀ c ∈ List.dropWhile pyWS k, c ≠ '\n' ∧ c ≠ '-' ∧ c ≠ ':' :=
    fun c hc => hk c (mem_of_mem_dropWhile _ _ _ hc)
  have hstrip : pyStrip x2
      = List.dropWhile pyWS k ++ ':' :: (v ++ '\n' :: junk) := by
    rw [hx2, pyStrip_cons_ws '\n' _ (by decide)]
    rw [pyStrip, dropWhile_append_stop pyWS k (v ++ '\n' :: (junk ++ ['\n'])) ':' (by decide)]
    rcases hjr : junk.reverse with _ | ⟨j0, js⟩
    · exact absurd (by simpa using congrArg List.reverse hjr) hjne
    · have hjunk : junk = (j0 :: js).reverse := by
        have h := congrArg List.reverse hjr
        simpa using h
      have hj0 : ¬ pyWS j0 = true := by
        have hj0mem : j0 ∈ junk := by
          rw [hjunk]
          simp
        exact (hj j0 hj0mem).2.2.2
      have hrev : (List.dropWhile pyWS k ++ ':' :: (v ++ '\n' :: (junk ++ ['\n']))).reverse
          = '\n' :: (j0 :: (js ++ '\n' :: (v.reverse
              ++ ':' :: (List.dropWhile pyWS k).reverse))) := by
        rw [hjunk]
        simp [List.reverse_append]
      rw [hrev, List.dropWhile_cons]
      simp only [show pyWS '\n' = true from by decide, if_true]
      rw [List.dropWhile_cons]
      simp only [hj0, if_false]
      rw [hjunk]
      simp [List.reverse_append]
  have hnl_line : ∀ c ∈ List.dropWhile pyWS k ++ ':' :: v, c ≠ '\n' := by
    intro c hc
    rcases List.mem_append.mp hc with h | h
    · exact (hdwk_sub c h).1
    · rcases List.mem_cons.mp h with h | h
      · subst h; decide
      · exact (hv c h).1
  have hsplit : splitNL (pyStrip x2) = (List.dropWhile pyWS k ++ ':' :: v) :: [junk] := by
    rw [hstrip]
    have h1 : List.dropWhile pyWS k ++ ':' :: (v ++ '\n' :: junk)
        = (List.dropWhile pyWS k ++ ':' :: v) ++ '\n' :: junk := by simp
    rw [h1, splitNL_append _ _ (fun hmem => absurd rfl (hnl_line '\n' hmem)),
      splitNL_no_nl junk (fun hmem => absurd rfl ((hj '\n' hmem).1))]
  show (headerPairs x2, pyStrip b) = ([(pyStrip k, stripQuotes v)], pyStrip b)
  rw [headerPairs, hsplit]
  have hmem1 : ':' ∈ List.dropWhile pyWS k ++ ':' :: v := by simp
  have hmem2 : ':' ∉ junk := fun hmem => absurd rfl ((hj ':' hmem).2.2.1)
  simp only [List.foldl_cons, List.foldl_nil, if_pos hmem1, if_neg hmem2]
  have htake : List.takeWhile (· ≠ ':') (List.dropWhile pyWS k ++ ':' :: v)
      = List.dropWhile pyWS k := by
    rw [takeWhile_append_all _ _ _ (fun c hc => by
      simp only [decide_eq_true_eq]
      exact (hdwk_sub c hc).2.2)]
    simp [List.takeWhile_cons]
  have hdrop : List.dropWhile (· ≠ ':') (List.dropWhile pyWS k ++ ':' :: v)
      = ':' :: v := by
    rw [dropWhile_append_all _ _ _ (fun c hc => by
      simp only [decide_eq_true_eq]
      exact (hdwk_sub c hc).2.2)]
    simp [List.dropWhile_cons]
  rw [htake, hdrop]
  simp [pyStrip_dropWhile]

/-- C8 witness: the value `\u0020""x""\u0020` (whitespace and two quote
layers) is stored as `x`. -/
theorem c8_header_value_stripping_witness :
    parseFM ("---\n".data ++ "title".data ++ ":".data ++ " \"\"x\"\" ".data
        ++ "\n".data ++ "nocolon".data ++ "\n---".data ++ "body".data)
      = ([(pyStrip "title".data, stripQuotes " \"\"x\"\" ".data)], pyStrip "body".data)
    ∧ stripQuotes " \"\"x\"\" ".data = "x".data := by
  refine ⟨c8_header_value_stripping "title".data " \"\"x\"\" ".data "nocolon".data
    "body".data (by decide) (by decide) (by decide) (by decide), by decide⟩

/-! ## Claims C2 and C3: the canonical post list -/

theorem lexLe_refl (l : List Char) : lexLe l l = true := by
  induction l with
  | nil => rfl
  | cons c cs ih => simp [lexLe, ih]

theorem lexLe_total (a b : List Char) : lexLe a b = true ∨ lexLe b a = true := by
  induction a generalizing b with
  | nil => exact Or.inl rfl
  | cons x xs ih =>
    cases b with
    | nil => exact Or.inr rfl
    | cons y ys =>
      by_cases h : x = y
      · subst h
        rcases ih ys with h1 | h1
        · exact Or.inl (by simp [lexLe, h1])
        · exact Or.inr (by simp [lexLe, h1])
      · have hne : ¬ y = x := fun hh => h hh.symm
        rcases lt_trichotomy x y with h1 | h1 | h1
        · exact Or.inl (by simp [lexLe, h, h1])
        · exact absurd h1 h
        · exact Or.inr (by simp [lexLe, hne, h1])

theorem lexLe_trans (a b c : List Char) (hab : lexLe a b = true) (hbc : lexLe b c = true) :
    lexLe a c = true := by
  induction a generalizing b c with
  | nil => rfl
  | cons x xs ih =>
    cases b with
    | nil => simp [lexLe] at hab
    | cons y ys =>
      cases c with
      | nil => simp [lexLe] at hbc
      | cons z zs =>
        by_cases hxy : x = y <;> by_cases hyz : y = z
        · subst hxy; subst hyz
          simp only [lexLe, if_pos rfl] at hab hbc ⊢
          exact ih ys zs hab hbc
        · subst hxy
          simp only [lexLe, if_pos rfl] at hab
          simpa [lexLe, hyz] using hbc
        · subst hyz
          simp only [lexLe, if_pos rfl] at hbc
          simpa [lexLe, hxy] using hab
        · simp only [lexLe, if_neg hxy, decide_eq_true_eq] at hab
          simp only [lexLe, if_neg hyz, decide_eq_true_eq] at hbc
          have hxz : x < z := lt_trans hab hbc
          simp [lexLe, ne_of_lt hxz, hxz]

theorem ordIns_perm (x : Post) (l : List Post) : List.Perm (ordIns x l) (x :: l) := by
  induction l with
  | nil => exact List.Perm.refl _
  | cons y ys ih =>
    rw [ordIns]
    by_cases h : dateGe x y
    · rw [if_pos h]
    · rw [if_neg h]
      exact (ih.cons y).trans (List.Perm.swap x y ys)

theorem sortPosts_perm (l : List Post) : List.Perm (sortPosts l) l := by
  induction l with
  | nil => exact List.Perm.refl _
  | cons x xs ih => exact (ordIns_perm x (sortPosts xs)).trans (ih.cons x)

/-- The descending-by-date relation the sorted list satisfies. -/
def dateDesc (a b : Post) : Prop := lexLe b.date a.date = true

theorem ordIns_pairwise (x : Post) (l : List Post) (h : l.Pairwise dateDesc) :
    (ordIns x l).Pairwise dateDesc := by
  induction l with
  | nil => simp [ordIns, List.pairwise_singleton]
  | cons y ys ih =>
    rw [ordIns]
    rcases List.pairwise_cons.mp h with ⟨hy, hys⟩
    by_cases hxy : dateGe x y
    · rw [if_pos hxy]
      refine List.pairwise_cons.mpr ⟨?_, h⟩
      intro z hz
      rcases List.mem_cons.mp hz with hz | hz
      · subst hz
        exact hxy
      · exact lexLe_trans _ _ _ (hy z hz) hxy
    · rw [if_neg hxy]
      refine List.pairwise_cons.mpr ⟨?_, ih hys⟩
      intro z hz
      have hz' : z ∈ x :: ys := (ordIns_perm x ys).mem_iff.mp hz
      rcases List.mem_cons.mp hz' with hz' | hz'
      · subst hz'
        rcases lexLe_total z.date y.date with h1 | h1
        · exact h1
        · exact absurd h1 hxy
      · exact hy z hz'

theorem sortPosts_pairwise (l : List Post) : (sortPosts l).Pairwise dateDesc := by
  induction l with
  | nil => simp [sortPosts]
  | cons x xs ih => exact ordIns_pairwise x (sortPosts xs) ih

theorem filter_date_ordIns (d : List Char) (x : Post) (l : List Post) :
    (ordIns x l).filter (fun p => decide (p.date = d))
      = if x.date = d then x :: l.filter (fun p => decide (p.date = d))
        else l.filter (fun p => decide (p.date = d)) := by
  induction l with
  | nil => by_cases h : x.date = d <;> simp [ordIns, List.filter, h]
  | cons y ys ih =>
    rw [ordIns]
    by_cases hxy : dateGe x y
    · rw [if_pos hxy]
      by_cases hx : x.date = d <;> simp [List.filter_cons, hx]
    · rw [if_neg hxy]
      rw [List.filter_cons, List.filter_cons]
      by_cases hx : x.date = d
      · have hy : ¬ y.date = d := by
          intro hy
          apply hxy
          show lexLe y.date x.date = true
          rw [hy, hx]
          exact lexLe_refl d
        simp [hx, hy, ih]
      · by_cases hy : y.date = d <;> simp [hx, hy, ih]

theorem sortPosts_filter_date (d : List Char) (l : List Post) :
    (sortPosts l).filter (fun p => decide (p.date = d))
      = l.filter (fun p => decide (p.date = d)) := by
  induction l with
  | nil => rfl
  | cons x xs ih =>
    rw [sortPosts, filter_date_ordIns, List.filter_cons]
    by_cases hx : x.date = d <;> simp [hx, ih]

/-- C3: the canonical post list is the two-phase scan list stably sorted by
date descending: the result is pairwise ≥ on dates, records with equal
dates keep their scan order (the filter at each date is unchanged), and
the spec's three-record example comes out in the stated order. -/
theorem c3_sorted_descending_stable :
    (∀ mdFiles htmlFiles : List (List Char × List Char),
        (getAllPostsL mdFiles htmlFiles).Pairwise dateDesc
        ∧ ∀ d, (getAllPostsL mdFiles htmlFiles).filter (fun p => decide (p.date = d))
            = (scannedPosts mdFiles htmlFiles).filter (fun p => decide (p.date = d)))
    ∧ (get_all_posts
          [("2024-03-01-a.md", ""), ("2024-01-15-b.md", ""), ("2024-03-01-c.md", "")] []).map
        (fun p => (p.slug, p.date))
      = [("a".data, "2024-03-01".data), ("c".data, "2024-03-01".data),
         ("b".data, "2024-01-15".data)] := by
  refine ⟨fun mdFiles htmlFiles => ⟨sortPosts_pairwise _, fun d => sortPosts_filter_date d _⟩,
    by decide⟩

/-- C2 counterexample: two markdown files with the same slug both survive
the scan — the canonical list holds TWO records with slug `x`, so "at most
one record per slug" fails. -/
theorem c2_counterexample :
    ((get_all_posts [("2024-01-01-x.md", ""), ("2024-02-02-x.md", "")] []).filter
        (fun p => decide (p.slug = "x".data))).length = 2 := by
  decide

theorem mdRecord_slug (name content : List Char) : (mdRecord name content).slug = slugL name :=
  rfl

theorem mdRecord_source (name content : List Char) :
    (mdRecord name content).source = Source.markdown :=
  rfl

theorem htmlPhase_mem (files : List (List Char × List Char)) :
    ∀ seen, ∀ p ∈ htmlPhase seen files,
      p.source = Source.html ∧ p.slug ∉ seen ∧ p.slug ∈ files.map (fun q => pyStem q.1) := by
  induction files with
  | nil =>
    intro seen p hp
    simp [htmlPhase] at hp
  | cons f fs ih =>
    intro seen p hp
    rw [htmlPhase] at hp
    by_cases hf : pyStem f.1 ∈ seen
    · rw [if_pos hf] at hp
      rcases ih seen p hp with ⟨h1, h2, h3⟩
      exact ⟨h1, h2, by simp [h3]⟩
    · rw [if_neg hf] at hp
      rcases List.mem_cons.mp hp with hp | hp
      · subst hp
        exact ⟨rfl, hf, by simp [extractHtmlMeta]⟩
      · rcases ih (pyStem f.1 :: seen) p hp with ⟨h1, h2, h3⟩
        exact ⟨h1, fun hmem => h2 (List.mem_cons_of_mem _ hmem), by simp [h3]⟩

theorem htmlPhase_slug_nodup (files : List (List Char × List Char))
    (h : (files.map (fun q => pyStem q.1)).Nodup) :
    ∀ seen, ((htmlPhase seen files).map Post.slug).Nodup := by
  induction files with
  | nil =>
    intro seen
    simp [htmlPhase]
  | cons f fs ih =>
    intro seen
    rw [htmlPhase]
    rw [List.map_cons] at h
    rcases List.nodup_cons.mp h with ⟨hf1, hf2⟩
    by_cases hf : pyStem f.1 ∈ seen
    · rw [if_pos hf]
      exact ih hf2 seen
    · rw [if_neg hf]
      rw [List.map_cons]
      refine List.nodup_cons.mpr ⟨?_, ih hf2 (pyStem f.1 :: seen)⟩
      intro hmem
      rcases List.mem_map.mp hmem with ⟨p, hp, hps⟩
      rcases htmlPhase_mem fs (pyStem f.1 :: seen) p hp with ⟨_, h2, _⟩
      rw [show (extractHtmlMeta f.1 f.2).slug = pyStem f.1 from rfl] at hps
      exact h2 (hps ▸ List.mem_cons_self _ _)

theorem filter_slug_one (s : List Char) (l : List Post)
    (hnd : (l.map Post.slug).Nodup) (hs : s ∈ l.map Post.slug) :
    (l.filter (fun p => decide (p.slug = s))).length = 1 := by
  induction l with
  | nil => simp at hs
  | cons p ps ih =>
    rw [List.map_cons] at hnd hs
    rcases List.nodup_cons.mp hnd with ⟨h1, h2⟩
    rw [List.filter_cons]
    by_cases hp : p.slug = s
    · have hnone : ps.filter (fun q => decide (q.slug = s)) = [] := by
        rw [List.filter_eq_nil_iff]
        intro q hq
        simp only [decide_eq_true_eq]
        intro hqs
        apply h1
        rw [hp, ← hqs]
        exact List.mem_map_of_mem Post.slug hq
      simp [hp, hnone]
    · have hs' : s ∈ ps.map Post.slug := by
        rcases List.mem_cons.mp hs with h | h
        · exact absurd h.symm hp
        · exact h
      simp only [hp, decide_eq_false, if_neg, Bool.false_eq_true, not_false_eq_true]
      exact ih h2 hs'

/-- C2 (amended): when the markdown files' derived slugs are pairwise
distinct (and the html stems are distinct, as directory entries always
are), the canonical list has at most one record per slug; and for every
slug that has a markdown source — in particular one that both a markdown
and an html file yield — exactly one record with that slug appears,
sourced from markdown (the priority rule). -/
theorem c2_slug_dedup (mdFiles htmlFiles : List (List Char × List Char))
    (hmd : (mdFiles.map (fun p => slugL p.1)).Nodup)
    (hhtml : (htmlFiles.map (fun p => pyStem p.1)).Nodup) :
    ((getAllPostsL mdFiles htmlFiles).map Post.slug).Nodup
    ∧ ∀ s, s ∈ mdFiles.map (fun p => slugL p.1) →
        ((getAllPostsL mdFiles htmlFiles).filter (fun p => decide (p.slug = s))).length = 1
        ∧ ∀ p ∈ getAllPostsL mdFiles htmlFiles, p.slug = s → p.source = Source.markdown := by
  have hmdslugs : (mdFiles.map (fun p => mdRecord p.1 p.2)).map Post.slug
      = mdFiles.map (fun p => slugL p.1) := by
    rw [List.map_map]
    rfl
  have hperm : List.Perm (getAllPostsL mdFiles htmlFiles) (scannedPosts mdFiles htmlFiles) :=
    sortPosts_perm _
  have hscan_slugs : (scannedPosts mdFiles htmlFiles).map Post.slug
      = mdFiles.map (fun p => slugL p.1)
        ++ (htmlPhase ((mdFiles.map (fun p => mdRecord p.1 p.2)).map Post.slug) htmlFiles).map
            Post.slug := by
    rw [scannedPosts, List.map_append, hmdslugs]
  have hdisj : ∀ s ∈ mdFiles.map (fun p => slugL p.1),
      s ∉ (htmlPhase ((mdFiles.map (fun p => mdRecord p.1 p.2)).map Post.slug) htmlFiles).map
          Post.slug := by
    intro s hsm hmem
    rcases List.mem_map.mp hmem with ⟨p, hp, hps⟩
    rcases htmlPhase_mem htmlFiles _ p hp with ⟨_, h2, _⟩
    rw [hmdslugs] at h2
    exact h2 (hps ▸ hsm)
  have hscannd : ((scannedPosts mdFiles htmlFiles).map Post.slug).Nodup := by
    rw [hscan_slugs, List.nodup_append]
    exact ⟨hmd, htmlPhase_slug_nodup htmlFiles hhtml _, fun s hs1 hs2 => hdisj s hs1 hs2⟩
  constructor
  · exact ((hperm.map Post.slug).nodup_iff).mpr hscannd
  · intro s hsmd
    constructor
    · rw [(hperm.filter (fun p => decide (p.slug = s))).length_eq]
      rw [scannedPosts, List.filter_append]
      have hnone : (htmlPhase ((mdFiles.map (fun p => mdRecord p.1 p.2)).map Post.slug)
          htmlFiles).filter (fun p => decide (p.slug = s)) = [] := by
        rw [List.filter_eq_nil_iff]
        intro q hq
        simp only [decide_eq_true_eq]
        intro hqs
        exact hdisj s hsmd (hqs ▸ List.mem_map_of_mem Post.slug hq)
      rw [hnone, List.append_nil]
      refine filter_slug_one s _ ?_ ?_
      · rw [hmdslugs]
        exact hmd
      · rw [hmdslugs]
        exact hsmd
    · intro p hp hps
      have hpscan : p ∈ scannedPosts mdFiles htmlFiles := hperm.mem_iff.mp hp
      rw [scannedPosts] at hpscan
      rcases List.mem_append.mp hpscan with h | h
      · rcases List.mem_map.mp h with ⟨q, _, hq⟩
        rw [← hq]
        rfl
      · rcases htmlPhase_mem htmlFiles _ p h with ⟨_, h2, _⟩
        rw [hmdslugs] at h2
        exact absurd (hps ▸ hsmd) h2

/-- C2 witness: with `posts/2024-01-01-x.md` and `thoughts/x.html` both
present, exactly one record with slug `x` appears and it is
markdown-sourced. -/
theorem c2_slug_dedup_witness :
    ((get_all_posts [("2024-01-01-x.md", "")] [("x.html", "")]).map Post.slug).Nodup
    ∧ ((get_all_posts [("2024-01-01-x.md", "")] [("x.html", "")]).filter
        (fun p => decide (p.slug = "x".data))).length = 1
    ∧ ∀ p ∈ get_all_posts [("2024-01-01-x.md", "")] [("x.html", "")],
        p.slug = "x".data → p.source = Source.markdown := by
  have h := c2_slug_dedup [("2024-01-01-x.md".data, "".data)] [("x.html".data, "".data)]
    (by decide) (by decide)
  have h2 := h.2 "x".data (by decide)
  exact ⟨h.1, h2.1, h2.2⟩

/-! ## Claim C4: link URLs -/

theorem escapeChar_id (c : Char)
    (h : c ≠ '&' ∧ c ≠ '<' ∧ c ≠ '>' ∧ c ≠ '"' ∧ c ≠ '\'') : escapeChar c = [c] := by
  rw [escapeChar, if_neg h.1, if_neg h.2.1, if_neg h.2.2.1, if_neg h.2.2.2.1,
    if_neg h.2.2.2.2]

theorem htmlEscapeL_id (l : List Char)
    (h : ∀ c ∈ l, c ≠ '&' ∧ c ≠ '<' ∧ c ≠ '>' ∧ c ≠ '"' ∧ c ≠ '\'') :
    htmlEscapeL l = l := by
  induction l with
  | nil => rfl
  | cons c cs ih =>
    rw [htmlEscapeL, escapeChar_id c (h c (by simp)),
      ih (fun x hx => h x (List.mem_cons_of_mem _ hx))]
    rfl

theorem codeSub_cons_pass (c : Char) (cs : List Char) (h : c ≠ '`') :
    codeSub (c :: cs) = c :: codeSub cs := by
  rw [codeSub, if_neg h]

theorem codeSub_id (l : List Char) (h : '`' ∉ l) : codeSub l = l := by
  induction l with
  | nil => rw [codeSub]
  | cons c cs ih =>
    rw [codeSub_cons_pass c cs (fun hc => h (by simp [hc])),
      ih (fun hc => h (List.mem_cons_of_mem _ hc))]

theorem boldStar_cons_pass (c : Char) (cs : List Char)
    (h : ¬ (c = '*' ∧ "*".data.isPrefixOf cs = true)) :
    boldStar (c :: cs) = c :: boldStar cs := by
  rw [boldStar, if_neg h]

theorem boldStar_id (l : List Char) (h : '*' ∉ l) : boldStar l = l := by
  induction l with
  | nil => rw [boldStar]
  | cons c cs ih =>
    rw [boldStar_cons_pass c cs (fun hc => h (by simp [hc.1])),
      ih (fun hc => h (List.mem_cons_of_mem _ hc))]

theorem boldUnder_cons_pass (c : Char) (cs : List Char)
    (h : ¬ (c = '_' ∧ "_".data.isPrefixOf cs = true)) :
    boldUnder (c :: cs) = c :: boldUnder cs := by
  rw [boldUnder, if_neg h]

theorem boldUnder_id (l : List Char) (h : '_' ∉ l) : boldUnder l = l := by
  induction l with
  | nil => rw [boldUnder]
  | cons c cs ih =>
    rw [boldUnder_cons_pass c cs (fun hc => h (by simp [hc.1])),
      ih (fun hc => h (List.mem_cons_of_mem _ hc))]

theorem italStar_cons_pass (c : Char) (cs : List Char) (h : c ≠ '*') :
    italStar (c :: cs) = c :: italStar cs := by
  rw [italStar, if_neg h]

theorem italStar_id (l : List Char) (h : '*' ∉ l) : italStar l = l := by
  induction l with
  | nil => rw [italStar]
  | cons c cs ih =>
    rw [italStar_cons_pass c cs (fun hc => h (by simp [hc])),
      ih (fun hc => h (List.mem_cons_of_mem _ hc))]

theorem italUnder_cons_pass (c : Char) (cs : List Char) (h : c ≠ '_') :
    italUnder (c :: cs) = c :: italUnder cs := by
  rw [italUnder, if_neg h]

theorem italUnder_id (l : List Char) (h : '_' ∉ l) : italUnder l = l := by
  induction l with
  | nil => rw [italUnder]
  | cons c cs ih =>
    rw [italUnder_cons_pass c cs (fun hc => h (by simp [hc])),
      ih (fun hc => h (List.mem_cons_of_mem _ hc))]

theorem linkSub_cons_pass (c : Char) (cs : List Char) (h : c ≠ '[') :
    linkSub (c :: cs) = c :: linkSub cs := by
  rw [linkSub, if_neg h]

theorem linkSub_id (l : List Char) (h : '[' ∉ l) : linkSub l = l := by
  induction l with
  | nil => rw [linkSub]
  | cons c cs ih =>
    rw [linkSub_cons_pass c cs (fun hc => h (by simp [hc])),
      ih (fun hc => h (List.mem_cons_of_mem _ hc))]

theorem linkSub_append_clean (a r : List Char) (h : '[' ∉ a) :
    linkSub (a ++ r) = a ++ linkSub r := by
  induction a with
  | nil => rfl
  | cons c cs ih =>
    rw [List.cons_append, linkSub_cons_pass c _ (fun hc => h (by simp [hc])),
      ih (fun hc => h (List.mem_cons_of_mem _ hc))]
    rfl

theorem linkSub_match (label url b : List Char)
    (hl : label ≠ []) (hlb : ']' ∉ label) (hu : url ≠ []) (hub : ')' ∉ url) :
    linkSub ('[' :: (label ++ ']' :: '(' :: (url ++ ')' :: b)))
      = "<a href=\"".data ++ url ++ "\">".data ++ label ++ "</a>".data ++ linkSub b := by
  have htake1 : (label ++ ']' :: '(' :: (url ++ ')' :: b)).takeWhile (· ≠ ']') = label := by
    rw [takeWhile_append_all _ _ _ (fun c hc => by
      simp only [decide_eq_true_eq]
      exact fun he => hlb (he ▸ hc))]
    simp [List.takeWhile_cons]
  have hdrop1 : (label ++ ']' :: '(' :: (url ++ ')' :: b)).dropWhile (· ≠ ']')
      = ']' :: '(' :: (url ++ ')' :: b) := by
    rw [dropWhile_append_all _ _ _ (fun c hc => by
      simp only [decide_eq_true_eq]
      exact fun he => hlb (he ▸ hc))]
    simp [List.dropWhile_cons]
  have htake2 : (url ++ ')' :: b).takeWhile (· ≠ ')') = url := by
    rw [takeWhile_append_all _ _ _ (fun c hc => by
      simp only [decide_eq_true_eq]
      exact fun he => hub (he ▸ hc))]
    simp [List.takeWhile_cons]
  have hdrop2 : (url ++ ')' :: b).dropWhile (· ≠ ')') = ')' :: b := by
    rw [dropWhile_append_all _ _ _ (fun c hc => by
      simp only [decide_eq_true_eq]
      exact fun he => hub (he ▸ hc))]
    simp [List.dropWhile_cons]
  rw [linkSub, if_pos rfl]
  simp only [htake1, hdrop1]
  rw [if_pos ⟨hl, by simp [List.isPrefixOf]⟩]
  simp only [List.drop_succ_cons, List.drop_zero, htake2, hdrop2]
  rw [if_pos ⟨hu, by simp⟩]
  simp

theorem isPrefixOf_append_cases (pat u y : List Char)
    (h : pat.isPrefixOf (u ++ y) = true) :
    pat.isPrefixOf u = true ∨ ∃ y1, pat = u ++ y1 ∧ y1.isPrefixOf y = true := by
  rw [List.isPrefixOf_iff_prefix] at h
  induction u generalizing pat with
  | nil =>
    right
    refine ⟨pat, rfl, ?_⟩
    rw [List.isPrefixOf_iff_prefix]
    simpa using h
  | cons c u2 ih =>
    cases pat with
    | nil =>
      left
      rw [List.isPrefixOf_iff_prefix]
      exact List.nil_prefix
    | cons p ps =>
      rcases h with ⟨t, ht⟩
      rw [List.cons_append, List.cons_append] at ht
      injection ht with h1 h2
      subst h1
      rcases ih ps ⟨t, h2⟩ with h3 | ⟨y1, hy1, hy2⟩
      · left
        rw [List.isPrefixOf_iff_prefix] at h3 ⊢
        rcases h3 with ⟨t2, ht2⟩
        exact ⟨t2, by rw [List.cons_append, ht2]⟩
      · right
        exact ⟨y1, by rw [List.cons_append, ← hy1], hy2⟩

theorem isPrefixOf_append_left (pat u y : List Char) (h : pat.isPrefixOf u = true) :
    pat.isPrefixOf (u ++ y) = true := by
  rw [List.isPrefixOf_iff_prefix] at h ⊢
  exact h.trans (List.prefix_append u y)

theorem occurs_append_of_nocross (pat : List Char) (x y : List Char)
    (hcross : ∀ x2 y1, x2 ≠ [] → y1 ≠ [] → pat = x2 ++ y1 →
      x2.isSuffixOf x = true → y1.isPrefixOf y = true → False) :
    occurs pat (x ++ y) = occurs pat x + occurs pat y := by
  induction x with
  | nil => simp [occurs]
  | cons c x2 ih =>
    rw [List.cons_append, occurs, occurs]
    have hind : pat.isPrefixOf (c :: (x2 ++ y)) = pat.isPrefixOf (c :: x2) := by
      by_cases hp : pat.isPrefixOf (c :: x2) = true
      · have h2 := isPrefixOf_append_left pat (c :: x2) y hp
        rw [List.cons_append] at h2
        rw [h2, hp]
      · by_cases hq : pat.isPrefixOf (c :: (x2 ++ y)) = true
        · exfalso
          have hq2 : pat.isPrefixOf ((c :: x2) ++ y) = true := by
            rw [List.cons_append]
            exact hq
          rcases isPrefixOf_append_cases pat (c :: x2) y hq2 with h1 | ⟨y1, h1, h2⟩
          · exact hp h1
          · have hy1ne : y1 ≠ [] := by
              intro he
              rw [he, List.append_nil] at h1
              apply hp
              rw [h1, List.isPrefixOf_iff_prefix]
            exact hcross (c :: x2) y1 (by simp) hy1ne h1
              (by rw [List.isSuffixOf_iff_suffix]) h2
        · rw [Bool.not_eq_true] at hp hq
          rw [hp, hq]
    rw [hind]
    have ih2 := ih (fun x3 y1 hx3 hy1 hpat hsuf hpre => by
      refine hcross x3 y1 hx3 hy1 hpat ?_ hpre
      rw [List.isSuffixOf_iff_suffix] at hsuf ⊢
      exact hsuf.trans (List.suffix_cons c x2))
    omega

theorem occurs_eq_zero_head (p : Char) (rest l : List Char) (h : p ∉ l) :
    occurs (p :: rest) l = 0 := by
  induction l with
  | nil => rfl
  | cons c cs ih =>
    rw [occurs, if_neg, ih (fun hc => h (List.mem_cons_of_mem _ hc))]
    intro hp
    rw [List.isPrefixOf_iff_prefix] at hp
    exact h (hp.subset (by simp))

theorem two_dash_split (x2 y1 : List Char) (hx : x2 ≠ []) (hy : y1 ≠ [])
    (h : ('-' :: '-' :: ([] : List Char)) = x2 ++ y1) : x2 = ['-'] ∧ y1 = ['-'] := by
  cases x2 with
  | nil => exact absurd rfl hx
  | cons a x3 =>
    cases x3 with
    | nil =>
      rw [List.cons_append, List.nil_append] at h
      have ha : a = '-' := by
        injection h with h1 _
        exact h1.symm
      have hy1 : y1 = ['-'] := by
        injection h with _ h2
        exact h2.symm
      exact ⟨by rw [ha], hy1⟩
    | cons a2 x4 =>
      rw [List.cons_append, List.cons_append] at h
      injection h with h1 h2
      injection h2 with h3 h4
      have : x4 ++ y1 = [] := h4.symm
      rcases List.append_eq_nil.mp this with ⟨_, h6⟩
      exact absurd h6 hy

theorem mdashSub_trigger_iff (c : Char) (cs : List Char) :
    (c = '-' ∧ "-".data.isPrefixOf cs = true) ↔ "--".data.isPrefixOf (c :: cs) = true := by
  constructor
  · rintro ⟨h1, h2⟩
    subst h1
    simpa [List.isPrefixOf] using h2
  · intro h
    rw [List.isPrefixOf_iff_prefix] at h
    rcases h with ⟨t, ht⟩
    have ht2 : '-' :: '-' :: t = c :: cs := ht
    injection ht2 with ha hb
    refine ⟨ha.symm, ?_⟩
    rw [← hb]
    simp [List.isPrefixOf]

theorem mdashSub_id (l : List Char) (h : occurs "--".data l = 0) : mdashSub l = l := by
  induction l with
  | nil => rw [mdashSub]
  | cons c cs ih =>
    rw [occurs] at h
    have h1 : ¬ "--".data.isPrefixOf (c :: cs) = true := by
      intro hp
      rw [if_pos hp] at h
      omega
    have h2 : occurs "--".data cs = 0 := by
      by_cases hp : "--".data.isPrefixOf (c :: cs) = true
      · exact absurd hp h1
      · rw [if_neg hp] at h
        omega
    rw [mdashSub, if_neg (fun hc => h1 ((mdashSub_trigger_iff c cs).mp hc)), ih h2]

theorem isPrefixOf_single_head (c : Char) (l : List Char) (h : [c].isPrefixOf l = true) :
    l.head? = some c := by
  cases l with
  | nil => simp [List.isPrefixOf] at h
  | cons d ds =>
    rw [List.isPrefixOf_iff_prefix] at h
    rcases h with ⟨t, ht⟩
    injection ht with h1 _
    rw [List.head?_cons]
    exact congrArg some h1.symm

/-- Characters that none of the inline substitutions treat as markup and
that the escape pass leaves unchanged. -/
def plainChar (c : Char) : Prop :=
  c ≠ '&' ∧ c ≠ '<' ∧ c ≠ '>' ∧ c ≠ '"' ∧ c ≠ '\'' ∧ c ≠ '`' ∧ c ≠ '*' ∧ c ≠ '_'
  ∧ c ≠ '[' ∧ c ≠ ']' ∧ c ≠ '(' ∧ c ≠ ')'

instance plainChar.decidable (c : Char) : Decidable (plainChar c) := by
  unfold plainChar
  infer_instance

/-- C4 counterexample: the url `http://e.com/a_b_c` is raw ASCII with no
quote or angle characters, yet the italic substitution rewrites its
underscores BEFORE the link substitution runs: the emitted href is
`http://e.com/a<em>b</em>c`, and the original url occurs nowhere in the
output. -/
theorem c4_counterexample :
    (∀ c ∈ "http://e.com/a_b_c".data,
        c.toNat < 128 ∧ c ≠ '"' ∧ c ≠ '\'' ∧ c ≠ '<' ∧ c ≠ '>')
    ∧ process_inline "[x](http://e.com/a_b_c)" = "<a href=\"http://e.com/a<em>b</em>c\">x</a>"
    ∧ occurs "http://e.com/a_b_c".data
        (process_inline "[x](http://e.com/a_b_c)").data = 0 := by
  have hmain : process_inline "[x](http://e.com/a_b_c)"
      = "<a href=\"http://e.com/a<em>b</em>c\">x</a>" := by
    simp [process_inline, processInlineL, htmlEscapeL, escapeChar, codeSub, boldStar,
      boldUnder, italStar, italUnder, linkSub, mdashSub]
  refine ⟨by decide, hmain, ?_⟩
  rw [congrArg String.data hmain]
  decide

/-- C4 (amended): a link whose url consists of characters that are not
markup for any substitution (no quote, angle, ampersand, apostrophe,
backtick, asterisk, underscore, bracket or parenthesis characters) and
contains no `--`, placed in a context with only plain characters, passes
through to the href attribute unchanged. -/
theorem c4_link_url_passthrough (a label url b : List Char)
    (ha : ∀ c ∈ a, plainChar c ∧ c ≠ '-')
    (hlabel : label ≠ [] ∧ ∀ c ∈ label, plainChar c ∧ c ≠ '-')
    (hurl : url ≠ [] ∧ (∀ c ∈ url, plainChar c) ∧ occurs "--".data url = 0)
    (hb : ∀ c ∈ b, plainChar c ∧ c ≠ '-') :
    processInlineL (a ++ '[' :: (label ++ ']' :: '(' :: (url ++ ')' :: b)))
      = a ++ ("<a href=\"".data ++ (url ++ ("\">".data ++ (label ++ ("</a>".data ++ b))))) := by
  have hmem : ∀ c ∈ a ++ '[' :: (label ++ ']' :: '(' :: (url ++ ')' :: b)),
      c ∈ a ∨ c = '[' ∨ c ∈ label ∨ c = ']' ∨ c = '(' ∨ c ∈ url ∨ c = ')' ∨ c ∈ b := by
    intro c hc
    rcases List.mem_append.mp hc with h | h
    · exact Or.inl h
    rcases List.mem_cons.mp h with h | h
    · exact Or.inr (Or.inl h)
    rcases List.mem_append.mp h with h | h
    · exact Or.inr (Or.inr (Or.inl h))
    rcases List.mem_cons.mp h with h | h
    · exact Or.inr (Or.inr (Or.inr (Or.inl h)))
    rcases List.mem_cons.mp h with h | h
    · exact Or.inr (Or.inr (Or.inr (Or.inr (Or.inl h))))
    rcases List.mem_append.mp h with h | h
    · exact Or.inr (Or.inr (Or.inr (Or.inr (Or.inr (Or.inl h)))))
    rcases List.mem_cons.mp h with h | h
    · exact Or.inr (Or.inr (Or.inr (Or.inr (Or.inr (Or.inr (Or.inl h))))))
    · exact Or.inr (Or.inr (Or.inr (Or.inr (Or.inr (Or.inr (Or.inr h))))))
  have hplain : ∀ c ∈ a ++ '[' :: (label ++ ']' :: '(' :: (url ++ ')' :: b)),
      c ≠ '&' ∧ c ≠ '<' ∧ c ≠ '>' ∧ c ≠ '"' ∧ c ≠ '\'' ∧ c ≠ '`' ∧ c ≠ '*' ∧ c ≠ '_' := by
    intro c hc
    rcases hmem c hc with h | h | h | h | h | h | h | h
    · rcases (ha c h).1 with ⟨h1, h2, h3, h4, h5, h6, h7, h8, _⟩
      exact ⟨h1, h2, h3, h4, h5, h6, h7, h8⟩
    · subst h; refine ⟨?_, ?_, ?_, ?_, ?_, ?_, ?_, ?_⟩ <;> decide
    · rcases (hlabel.2 c h).1 with ⟨h1, h2, h3, h4, h5, h6, h7, h8, _⟩
      exact ⟨h1, h2, h3, h4, h5, h6, h7, h8⟩
    · subst h; refine ⟨?_, ?_, ?_, ?_, ?_, ?_, ?_, ?_⟩ <;> decide
    · subst h; refine ⟨?_, ?_, ?_, ?_, ?_, ?_, ?_, ?_⟩ <;> decide
    · rcases (hurl.2.1 c h) with ⟨h1, h2, h3, h4, h5, h6, h7, h8, _⟩
      exact ⟨h1, h2, h3, h4, h5, h6, h7, h8⟩
    · subst h; refine ⟨?_, ?_, ?_, ?_, ?_, ?_, ?_, ?_⟩ <;> decide
    · rcases (hb c h).1 with ⟨h1, h2, h3, h4, h5, h6, h7, h8, _⟩
      exact ⟨h1, h2, h3, h4, h5, h6, h7, h8⟩
  rw [processInlineL]
  rw [htmlEscapeL_id _ (fun c hc => by
    rcases hplain c hc with ⟨h1, h2, h3, h4, h5, _, _, _⟩
    exact ⟨h1, h2, h3, h4, h5⟩)]
  rw [codeSub_id _ (fun hc => ((hplain '`' hc).2.2.2.2.2.1) rfl)]
  rw [boldStar_id _ (fun hc => ((hplain '*' hc).2.2.2.2.2.2.1) rfl)]
  rw [boldUnder_id _ (fun hc => ((hplain '_' hc).2.2.2.2.2.2.2) rfl)]
  rw [italStar_id _ (fun hc => ((hplain '*' hc).2.2.2.2.2.2.1) rfl)]
  rw [italUnder_id _ (fun hc => ((hplain '_' hc).2.2.2.2.2.2.2) rfl)]
  have hbr : '[' ∉ a := fun hc => (ha '[' hc).1.2.2.2.2.2.2.2.2.1 rfl
  rw [linkSub_append_clean a _ hbr]
  rw [linkSub_match label url b hlabel.1
    (fun hc => (hlabel.2 ']' hc).1.2.2.2.2.2.2.2.2.2.1 rfl)
    hurl.1
    (fun hc => (hurl.2.1 ')' hc).2.2.2.2.2.2.2.2.2.2.2 rfl)]
  rw [linkSub_id b (fun hc => (hb '[' hc).1.2.2.2.2.2.2.2.2.1 rfl)]
  have hocc : occurs "--".data
      (a ++ ("<a href=\"".data ++ (url ++ ("\">".data ++ (label ++ ("</a>".data ++ b)))))) = 0 := by
    have hza : occurs "--".data a = 0 :=
      occurs_eq_zero_head '-' _ a (fun hc => (ha '-' hc).2 rfl)
    have hzl : occurs "--".data label = 0 :=
      occurs_eq_zero_head '-' _ label (fun hc => (hlabel.2 '-' hc).2 rfl)
    have hzb : occurs "--".data b = 0 :=
      occurs_eq_zero_head '-' _ b (fun hc => (hb '-' hc).2 rfl)
    have h6 : occurs "--".data ("</a>".data ++ b) = 0 := by
      rw [occurs_append_of_nocross _ _ _ (fun x2 y1 hx2 hy1 hpat hsuf hpre => by
        rcases two_dash_split x2 y1 hx2 hy1 hpat with ⟨he1, _⟩
        rw [he1] at hsuf
        exact absurd hsuf (by decide))]
      rw [hzb]
      decide
    have h5 : occurs "--".data (label ++ ("</a>".data ++ b)) = 0 := by
      rw [occurs_append_of_nocross _ _ _ (fun x2 y1 hx2 hy1 hpat hsuf hpre => by
        rcases two_dash_split x2 y1 hx2 hy1 hpat with ⟨_, he2⟩
        rw [he2] at hpre
        have := isPrefixOf_single_head '-' _ hpre
        simp at this)]
      rw [hzl, h6]
    have h4 : occurs "--".data ("\">".data ++ (label ++ ("</a>".data ++ b))) = 0 := by
      rw [occurs_append_of_nocross _ _ _ (fun x2 y1 hx2 hy1 hpat hsuf hpre => by
        rcases two_dash_split x2 y1 hx2 hy1 hpat with ⟨he1, _⟩
        rw [he1] at hsuf
        exact absurd hsuf (by decide))]
      rw [h5]
      decide
    have h3 : occurs "--".data (url ++ ("\">".data ++ (label ++ ("</a>".data ++ b)))) = 0 := by
      rw [occurs_append_of_nocross _ _ _ (fun x2 y1 hx2 hy1 hpat hsuf hpre => by
        rcases two_dash_split x2 y1 hx2 hy1 hpat with ⟨_, he2⟩
        rw [he2] at hpre
        have := isPrefixOf_single_head '-' _ hpre
        simp at this)]
      rw [hurl.2.2, h4]
    have h2 : occurs "--".data
        ("<a href=\"".data ++ (url ++ ("\">".data ++ (label ++ ("</a>".data ++ b))))) = 0 := by
      rw [occurs_append_of_nocross _ _ _ (fun x2 y1 hx2 hy1 hpat hsuf hpre => by
        rcases two_dash_split x2 y1 hx2 hy1 hpat with ⟨he1, _⟩
        rw [he1] at hsuf
        exact absurd hsuf (by decide))]
      rw [h3]
      decide
    rw [occurs_append_of_nocross _ _ _ (fun x2 y1 hx2 hy1 hpat hsuf hpre => by
      rcases two_dash_split x2 y1 hx2 hy1 hpat with ⟨he1, _⟩
      rw [he1] at hsuf
      rw [List.isSuffixOf_iff_suffix] at hsuf
      exact (ha '-' (hsuf.subset (by simp))).2 rfl)]
    rw [hza, h2]
  have hfinal := mdashSub_id _ hocc
  have hassoc : "<a href=\"".data ++ url ++ "\">".data ++ label ++ "</a>".data ++ b
      = "<a href=\"".data ++ (url ++ ("\">".data ++ (label ++ ("</a>".data ++ b)))) := by
    simp [List.append_assoc]
  rw [hassoc, hfinal]

/-- C4 witness: the url `http://e.com/a-b` (plain characters, single
dashes only) passes through to the href unchanged. -/
theorem c4_link_url_passthrough_witness :
    processInlineL ("see ".data ++ '[' :: ("x".data ++ ']' :: '(' ::
        ("http://e.com/a-b".data ++ ')' :: "!".data)))
      = "see ".data ++ ("<a href=\"".data ++ ("http://e.com/a-b".data
          ++ ("\">".data ++ ("x".data ++ ("</a>".data ++ "!".data))))) := by
  exact c4_link_url_passthrough "see ".data "x".data "http://e.com/a-b".data "!".data
    (by decide) ⟨by decide, by decide⟩ ⟨by decide, by decide, by decide⟩ (by decide)

/-! ## Claim C1: escaping.

Infrastructure: occurrence counting across appends, with crossing
refutations driven by concrete tag strings. -/

theorem isPrefixOf_head (w l : List Char) (hne : w ≠ []) (h : w.isPrefixOf l = true) :
    l.head? = w.head? := by
  cases w with
  | nil => exact absurd rfl hne
  | cons x w2 =>
    cases l with
    | nil => simp [List.isPrefixOf] at h
    | cons c cs =>
      rw [List.isPrefixOf_iff_prefix] at h
      rcases h with ⟨t, ht⟩
      rw [List.cons_append] at ht
      injection ht with h1 _
      rw [List.head?_cons, List.head?_cons, h1]

theorem nocross_concrete_left (pat T y : List Char)
    (hT : ∀ n, 0 < n → n < pat.length → (pat.take n).isSuffixOf T = false) :
    ∀ x2 y1, x2 ≠ [] → y1 ≠ [] → pat = x2 ++ y1 →
      x2.isSuffixOf T = true → y1.isPrefixOf y = true → False := by
  intro x2 y1 hx2 hy1 hpat hsuf _
  have hx2e : x2 = pat.take x2.length := by
    rw [hpat, List.take_left]
  have hlen : pat.length = x2.length + y1.length := by
    rw [hpat, List.length_append]
  have h1 : 0 < x2.length := List.length_pos.mpr hx2
  have h2 : x2.length < pat.length := by
    have h3 : 0 < y1.length := List.length_pos.mpr hy1
    omega
  rw [hx2e, hT x2.length h1 h2] at hsuf
  simp at hsuf

theorem nocross_right_head (pat x y : List Char) (hd : Char) (hy : y.head? = some hd)
    (hT : ∀ n, 0 < n → n < pat.length → (pat.drop n).head? ≠ some hd) :
    ∀ x2 y1, x2 ≠ [] → y1 ≠ [] → pat = x2 ++ y1 →
      x2.isSuffixOf x = true → y1.isPrefixOf y = true → False := by
  intro x2 y1 hx2 hy1 hpat _ hpre
  have hy1e : y1 = pat.drop x2.length := by
    rw [hpat, List.drop_left]
  have hlen : pat.length = x2.length + y1.length := by
    rw [hpat, List.length_append]
  have h1 : 0 < x2.length := List.length_pos.mpr hx2
  have h2 : x2.length < pat.length := by
    have h3 : 0 < y1.length := List.length_pos.mpr hy1
    omega
  have h3 := isPrefixOf_head y1 y hy1 hpre
  rw [hy1e, hy] at h3
  exact hT x2.length h1 h2 h3.symm

theorem nocross_singleton_left (pat : List Char) (c : Char) (y : List Char)
    (hc : pat.head? ≠ some c) :
    ∀ x2 y1, x2 ≠ [] → y1 ≠ [] → pat = x2 ++ y1 →
      x2.isSuffixOf [c] = true → y1.isPrefixOf y = true → False := by
  intro x2 y1 hx2 _ hpat hsuf _
  rw [List.isSuffixOf_iff_suffix] at hsuf
  rcases hsuf with ⟨pre, hpre⟩
  have hx2c : x2 = [c] := by
    cases pre with
    | nil => simpa using hpre
    | cons a pre2 =>
      exfalso
      have hlen := congrArg List.length hpre
      rw [List.length_append, List.length_cons, List.length_singleton] at hlen
      have h2 := List.length_pos.mpr hx2
      omega
  apply hc
  rw [hpat, hx2c]
  rfl

theorem occurs_zero_append_parts (pat x y : List Char)
    (h : occurs pat (x ++ y) = 0) : occurs pat x = 0 ∧ occurs pat y = 0 := by
  induction x with
  | nil => exact ⟨rfl, h⟩
  | cons c x2 ih =>
    rw [List.cons_append, occurs] at h
    have h1 : occurs pat (x2 ++ y) = 0 := by omega
    have h2 : ¬ pat.isPrefixOf (c :: (x2 ++ y)) = true := by
      intro hp
      rw [if_pos hp] at h
      omega
    rcases ih h1 with ⟨h3, h4⟩
    refine ⟨?_, h4⟩
    rw [occurs, h3, if_neg]
    intro hp
    apply h2
    have := isPrefixOf_append_left pat (c :: x2) y hp
    rwa [List.cons_append] at this

theorem occurs_zero_cons (pat : List Char) (c : Char) (cs : List Char)
    (h : occurs pat (c :: cs) = 0) : occurs pat cs = 0 := by
  rw [occurs] at h
  by_cases hp : pat.isPrefixOf (c :: cs) = true
  · rw [if_pos hp] at h
    omega
  · rw [if_neg hp] at h
    omega

theorem occurs_zero_drop (pat l : List Char) (k : ℕ) (h : occurs pat l = 0) :
    occurs pat (l.drop k) = 0 := by
  have := occurs_drop_le pat l k
  omega

theorem occurs_mono_pre (p1 pat l : List Char) (hpre : p1.isPrefixOf pat = true)
    (h : occurs p1 l = 0) : occurs pat l = 0 := by
  induction l with
  | nil => rfl
  | cons c cs ih =>
    rw [occurs] at h ⊢
    have h1 : occurs p1 cs = 0 := by
      by_cases hp : p1.isPrefixOf (c :: cs) = true
      · rw [if_pos hp] at h
        omega
      · rw [if_neg hp] at h
        omega
    have hneg : ¬ pat.isPrefixOf (c :: cs) = true := by
      intro hp
      have hp1 : p1.isPrefixOf (c :: cs) = true := by
        rw [List.isPrefixOf_iff_prefix] at hpre hp ⊢
        exact hpre.trans hp
      rw [if_pos hp1] at h
      omega
    rw [ih h1, if_neg hneg]

theorem dropWhile_head_not {α : Type} (p : α → Bool) (l : List α) (c : α) (cs : List α)
    (h : l.dropWhile p = c :: cs) : p c = false := by
  induction l with
  | nil => simp at h
  | cons x xs ih =>
    rw [List.dropWhile_cons] at h
    by_cases hx : p x
    · rw [if_pos hx] at h
      exact ih h
    · rw [if_neg hx] at h
      injection h with h1 _
      rw [← h1]
      exact Bool.not_eq_true _ |>.mp hx

theorem escape_no_lt (t : List Char) : '<' ∉ htmlEscapeL t := by
  induction t with
  | nil => simp [htmlEscapeL]
  | cons c cs ih =>
    rw [htmlEscapeL]
    intro hmem
    rcases List.mem_append.mp hmem with h | h
    · rw [escapeChar] at h
      by_cases h1 : c = '&'
      · rw [if_pos h1] at h
        simp at h
      rw [if_neg h1] at h
      by_cases h2 : c = '<'
      · rw [if_pos h2] at h
        simp at h
      rw [if_neg h2] at h
      by_cases h3 : c = '>'
      · rw [if_pos h3] at h
        simp at h
      rw [if_neg h3] at h
      by_cases h4 : c = '"'
      · rw [if_pos h4] at h
        simp at h
      rw [if_neg h4] at h
      by_cases h5 : c = '\''
      · rw [if_pos h5] at h
        simp at h
      rw [if_neg h5] at h
      rcases List.mem_singleton.mp h with h6
      exact h2 h6.symm
    · exact ih h

/-- The pattern tail transfers across a substitution `f` that passes its
characters through unchanged and whose insertions start with `<` or `&`. -/
theorem starts_iff_generic (f : List Char → List Char)
    (hhead : ∀ l h, (f l).head? = some h → l.head? = some h ∨ h = '<' ∨ h = '&')
    (w : List Char)
    (hpass : ∀ c cs, c ∈ w → f (c :: cs) = c :: f cs)
    (hw : ∀ c ∈ w, c ≠ '<' ∧ c ≠ '&') :
    ∀ cs, w.isPrefixOf (f cs) = w.isPrefixOf cs := by
  induction w with
  | nil =>
    intro cs
    simp [List.isPrefixOf]
  | cons x w2 ih =>
    intro cs
    have hx : x ∈ x :: w2 := by simp
    by_cases hl : (x :: w2).isPrefixOf cs = true
    · rw [hl]
      cases cs with
      | nil => simp [List.isPrefixOf] at hl
      | cons c cs2 =>
        have heq : c = x := by
          have h0 := isPrefixOf_head (x :: w2) (c :: cs2) (by simp) hl
          rw [List.head?_cons, List.head?_cons] at h0
          exact Option.some.inj h0
        have hstep : f (c :: cs2) = c :: f cs2 := hpass c cs2 (by rw [heq]; exact hx)
        rw [hstep]
        have hw2 : w2.isPrefixOf cs2 = true := by
          rw [List.isPrefixOf_iff_prefix] at hl
          rcases hl with ⟨t, ht⟩
          rw [List.cons_append] at ht
          injection ht with _ h2
          rw [List.isPrefixOf_iff_prefix]
          exact ⟨t, h2⟩
        have htr := ih (fun c2 cs3 hc => hpass c2 cs3 (List.mem_cons_of_mem _ hc))
          (fun c2 hc => hw c2 (List.mem_cons_of_mem _ hc)) cs2
        show ((x == c) && w2.isPrefixOf (f cs2)) = true
        rw [htr, heq, hw2]
        simp
    · rw [Bool.eq_false_iff.mpr hl]
      by_cases hf : (x :: w2).isPrefixOf (f cs) = true
      · exfalso
        have hdh : (f cs).head? = some x := by
          have h0 := isPrefixOf_head (x :: w2) (f cs) (by simp) hf
          rw [h0]
          rfl
        rcases hhead cs x hdh with h1 | h1 | h1
        · cases cs with
          | nil => simp at h1
          | cons c cs2 =>
            rw [List.head?_cons] at h1
            have heq : c = x := Option.some.inj h1
            have hstep : f (c :: cs2) = c :: f cs2 := hpass c cs2 (by rw [heq]; exact hx)
            rw [hstep] at hf
            have hw2 : w2.isPrefixOf (f cs2) = true := by
              rw [List.isPrefixOf_iff_prefix] at hf
              rcases hf with ⟨t, ht⟩
              rw [List.cons_append] at ht
              injection ht with _ h2
              rw [List.isPrefixOf_iff_prefix]
              exact ⟨t, h2⟩
            have htr := ih (fun c2 cs3 hc => hpass c2 cs3 (List.mem_cons_of_mem _ hc))
              (fun c2 hc => hw c2 (List.mem_cons_of_mem _ hc)) cs2
            rw [hw2] at htr
            apply hl
            show ((x == c) && w2.isPrefixOf cs2) = true
            rw [heq, ← htr]
            simp
        · exact (hw x hx).1 h1
        · exact (hw x hx).2 h1
      · rw [Bool.eq_false_iff.mpr hf]

theorem isPrefixOf_cons_congr (f : List Char → List Char) (p0 : Char) (w : List Char)
    (hsi : ∀ cs, w.isPrefixOf (f cs) = w.isPrefixOf cs) (c : Char) (cs : List Char) :
    (p0 :: w).isPrefixOf (c :: f cs) = (p0 :: w).isPrefixOf (c :: cs) := by
  show (p0 == c && w.isPrefixOf (f cs)) = (p0 == c && w.isPrefixOf cs)
  rw [hsi]

/-! ## Claim C1: escaping.  The pattern-counting lemmas below track two
patterns through the inline pipeline: `&amp;` (each source `&` must surface
as `&amp;` exactly once) and `<sc` (a prefix of `<script>`, which must never
appear at all). -/

theorem head?_eq_mem {α : Type} (l : List α) (a : α) (h : l.head? = some a) : a ∈ l := by
  cases l with
  | nil => simp at h
  | cons c cs =>
    rw [List.head?_cons] at h
    rw [← Option.some.inj h]
    exact List.mem_cons_self c cs

theorem nocross_right_concrete (pat x y : List Char)
    (hT : ∀ n, 0 < n → n < pat.length → (pat.drop n).isPrefixOf y = false) :
    ∀ x2 y1, x2 ≠ [] → y1 ≠ [] → pat = x2 ++ y1 →
      x2.isSuffixOf x = true → y1.isPrefixOf y = true → False := by
  intro x2 y1 hx2 hy1 hpat _ hpre
  have hy1e : y1 = pat.drop x2.length := by
    rw [hpat, List.drop_left]
  have hlen : pat.length = x2.length + y1.length := by
    rw [hpat, List.length_append]
  have h1 : 0 < x2.length := List.length_pos.mpr hx2
  have h2 : x2.length < pat.length := by
    have h3 : 0 < y1.length := List.length_pos.mpr hy1
    omega
  rw [hy1e, hT x2.length h1 h2] at hpre
  simp at hpre

/-- Any head character of `codeSub l` is a head character of `l` or comes
from an inserted tag (which starts with `<`). -/
theorem codeSub_head : ∀ (l : List Char) (h : Char),
    (codeSub l).head? = some h → l.head? = some h ∨ h = '<' ∨ h = '&' := by
  intro l h hh
  cases l with
  | nil =>
    rw [codeSub] at hh
    simp at hh
  | cons c cs =>
    by_cases h1 : c = '`'
    · by_cases h2 : cs.takeWhile (· ≠ '`') ≠ [] ∧ cs.dropWhile (· ≠ '`') ≠ []
      · subst h1
        rw [codeSub, if_pos rfl, if_pos h2] at hh
        right
        left
        have he : ("<code>".data ++ cs.takeWhile (· ≠ '`') ++ "</code>".data
            ++ codeSub (cs.dropWhile (· ≠ '`')).tail).head? = some '<' := rfl
        rw [he] at hh
        exact (Option.some.inj hh).symm
      · rw [codeSub, if_pos h1, if_neg h2, List.head?_cons] at hh
        rw [List.head?_cons]
        exact Or.inl hh
    · rw [codeSub_cons_pass c cs h1, List.head?_cons] at hh
      rw [List.head?_cons]
      exact Or.inl hh

/-- `codeSub` preserves the number of occurrences of any pattern that
avoids the backtick marker, whose tail is free of `<` and `&`, and that
cannot arise from or straddle the inserted `<code>`/`</code>` tags. -/
theorem codeSub_occurs (p0 : Char) (pt : List Char)
    (hm : '`' ∉ p0 :: pt)
    (hw : ∀ c ∈ pt, c ≠ '<' ∧ c ≠ '&')
    (ht1 : occurs (p0 :: pt) "<code>".data = 0)
    (ht2 : occurs (p0 :: pt) "</code>".data = 0)
    (hs1 : ∀ n, 0 < n → n < (p0 :: pt).length →
      ((p0 :: pt).take n).isSuffixOf "<code>".data = false)
    (hs2 : ∀ n, 0 < n → n < (p0 :: pt).length →
      ((p0 :: pt).take n).isSuffixOf "</code>".data = false)
    (hd : ∀ n, 0 < n → n < (p0 :: pt).length →
      ((p0 :: pt).drop n).head? ≠ some '<') :
    ∀ l, occurs (p0 :: pt) (codeSub l) = occurs (p0 :: pt) l := by
  have hp0 : p0 ≠ '`' := fun he => hm (he ▸ List.mem_cons_self p0 pt)
  have hpt : '`' ∉ pt := fun hc => hm (List.mem_cons_of_mem _ hc)
  have hsi : ∀ cs, pt.isPrefixOf (codeSub cs) = pt.isPrefixOf cs :=
    starts_iff_generic codeSub codeSub_head pt
      (fun c cs hc => codeSub_cons_pass c cs (fun he => hpt (he ▸ hc))) hw
  have hbdrop : ∀ n, 0 < n → n < (p0 :: pt).length →
      ((p0 :: pt).drop n).head? ≠ some '`' := by
    intro n _ _ hcon
    exact hm (List.drop_subset n (p0 :: pt) (head?_eq_mem _ _ hcon))
  have hnopref : ∀ xs : List Char, ¬ (p0 :: pt).isPrefixOf ('`' :: xs) = true := by
    intro xs hp
    have h3 := isPrefixOf_head (p0 :: pt) ('`' :: xs) (by simp) hp
    rw [List.head?_cons, List.head?_cons] at h3
    exact hp0 (Option.some.inj h3).symm
  have hocc_tick : ∀ xs : List Char,
      occurs (p0 :: pt) ('`' :: xs) = occurs (p0 :: pt) xs := by
    intro xs
    rw [occurs, if_neg (hnopref xs)]
    omega
  have main : ∀ n (l : List Char), l.length ≤ n →
      occurs (p0 :: pt) (codeSub l) = occurs (p0 :: pt) l := by
    intro n
    induction n with
    | zero =>
      intro l hl
      have he : l = [] := List.length_eq_zero.mp (Nat.le_zero.mp hl)
      rw [he, codeSub]
    | succ n ih =>
      intro l hl
      cases l with
      | nil => rw [codeSub]
      | cons c cs =>
        rw [List.length_cons] at hl
        have hlcs : cs.length ≤ n := by omega
        by_cases h1 : c = '`'
        · by_cases h2 : cs.takeWhile (· ≠ '`') ≠ [] ∧ cs.dropWhile (· ≠ '`') ≠ []
          · subst h1
            rcases hrest : cs.dropWhile (· ≠ '`') with _ | ⟨r0, rt⟩
            · exact absurd hrest h2.2
            · have hr0 : r0 = '`' := by
                have := dropWhile_head_not (· ≠ '`') cs r0 rt hrest
                simpa using this
              subst hr0
              have hcs : cs.takeWhile (· ≠ '`') ++ '`' :: rt = cs := by
                have h0 : cs.takeWhile (· ≠ '`') ++ cs.dropWhile (· ≠ '`') = cs := by
                  simp
                rw [hrest] at h0
                exact h0
              have hrt : rt.length ≤ n := by
                have h4 := dropWhile_len_le (· ≠ '`') cs
                rw [hrest, List.length_cons] at h4
                omega
              have hout : codeSub ('`' :: cs)
                  = "<code>".data ++ cs.takeWhile (· ≠ '`') ++ "</code>".data
                    ++ codeSub rt := by
                rw [codeSub, if_pos rfl, if_pos h2, hrest]
                simp only [List.tail_cons]
              rw [hout]
              have e1 : "<code>".data ++ cs.takeWhile (· ≠ '`') ++ "</code>".data
                    ++ codeSub rt
                  = "<code>".data ++ (cs.takeWhile (· ≠ '`')
                    ++ ("</code>".data ++ codeSub rt)) := by
                simp [List.append_assoc]
              rw [e1]
              have o1 := occurs_append_of_nocross (p0 :: pt) "<code>".data
                (cs.takeWhile (· ≠ '`') ++ ("</code>".data ++ codeSub rt))
                (nocross_concrete_left _ _ _ hs1)
              have o2 := occurs_append_of_nocross (p0 :: pt) (cs.takeWhile (· ≠ '`'))
                ("</code>".data ++ codeSub rt)
                (nocross_right_head _ _ _ '<' rfl hd)
              have o3 := occurs_append_of_nocross (p0 :: pt) "</code>".data (codeSub rt)
                (nocross_concrete_left _ _ _ hs2)
              rw [o1, o2, o3, ht1, ht2, ih rt hrt, hocc_tick cs]
              have hin : occurs (p0 :: pt) cs
                  = occurs (p0 :: pt) (cs.takeWhile (· ≠ '`')) + occurs (p0 :: pt) rt := by
                conv_lhs => rw [← hcs]
                have i1 := occurs_append_of_nocross (p0 :: pt) (cs.takeWhile (· ≠ '`'))
                  ('`' :: rt) (nocross_right_head _ _ _ '`' rfl hbdrop)
                rw [i1, hocc_tick rt]
              rw [hin]
              omega
          · have hpass : codeSub (c :: cs) = c :: codeSub cs := by
              rw [codeSub, if_pos h1, if_neg h2]
            rw [hpass, occurs, occurs,
              isPrefixOf_cons_congr codeSub p0 pt hsi c cs, ih cs hlcs]
        · rw [codeSub_cons_pass c cs h1, occurs, occurs,
            isPrefixOf_cons_congr codeSub p0 pt hsi c cs, ih cs hlcs]
  intro l
  exact main l.length l (le_refl _)

theorem codeSub_amp (l : List Char) :
    occurs "&amp;".data (codeSub l) = occurs "&amp;".data l :=
  codeSub_occurs '&' "amp;".data (by decide) (by decide) (by decide) (by decide)
    (by
      intro n h1 h2
      have h5 : ('&' :: "amp;".data).length = 5 := by decide
      rw [h5] at h2
      interval_cases n <;> decide)
    (by
      intro n h1 h2
      have h5 : ('&' :: "amp;".data).length = 5 := by decide
      rw [h5] at h2
      interval_cases n <;> decide)
    (by
      intro n h1 h2
      have h5 : ('&' :: "amp;".data).length = 5 := by decide
      rw [h5] at h2
      interval_cases n <;> decide)
    l

theorem codeSub_sc (l : List Char) :
    occurs "<sc".data (codeSub l) = occurs "<sc".data l :=
  codeSub_occurs '<' "sc".data (by decide) (by decide) (by decide) (by decide)
    (by
      intro n h1 h2
      have h5 : ('<' :: "sc".data).length = 3 := by decide
      rw [h5] at h2
      interval_cases n <;> decide)
    (by
      intro n h1 h2
      have h5 : ('<' :: "sc".data).length = 3 := by decide
      rw [h5] at h2
      interval_cases n <;> decide)
    (by
      intro n h1 h2
      have h5 : ('<' :: "sc".data).length = 3 := by decide
      rw [h5] at h2
      interval_cases n <;> decide)
    l

/-- Any head character of `italStar l` is a head character of `l` or comes
from an inserted tag (which starts with `<`). -/
theorem italStar_head : ∀ (l : List Char) (h : Char),
    (italStar l).head? = some h → l.head? = some h ∨ h = '<' ∨ h = '&' := by
  intro l h hh
  cases l with
  | nil =>
    rw [italStar] at hh
    simp at hh
  | cons c cs =>
    by_cases h1 : c = '*'
    · by_cases h2 : cs.takeWhile (· ≠ '*') ≠ [] ∧ cs.dropWhile (· ≠ '*') ≠ []
      · subst h1
        rw [italStar, if_pos rfl, if_pos h2] at hh
        right
        left
        have he : ("<em>".data ++ cs.takeWhile (· ≠ '*') ++ "</em>".data
            ++ italStar (cs.dropWhile (· ≠ '*')).tail).head? = some '<' := rfl
        rw [he] at hh
        exact (Option.some.inj hh).symm
      · rw [italStar, if_pos h1, if_neg h2, List.head?_cons] at hh
        rw [List.head?_cons]
        exact Or.inl hh
    · rw [italStar_cons_pass c cs h1, List.head?_cons] at hh
      rw [List.head?_cons]
      exact Or.inl hh

/-- `italStar` preserves the number of occurrences of any pattern that
avoids the `*` marker, whose tail is free of `<` and `&`, and that
cannot arise from or straddle the inserted `<em>`/`</em>` tags. -/
theorem italStar_occurs (p0 : Char) (pt : List Char)
    (hm : '*' ∉ p0 :: pt)
    (hw : ∀ c ∈ pt, c ≠ '<' ∧ c ≠ '&')
    (ht1 : occurs (p0 :: pt) "<em>".data = 0)
    (ht2 : occurs (p0 :: pt) "</em>".data = 0)
    (hs1 : ∀ n, 0 < n → n < (p0 :: pt).length →
      ((p0 :: pt).take n).isSuffixOf "<em>".data = false)
    (hs2 : ∀ n, 0 < n → n < (p0 :: pt).length →
      ((p0 :: pt).take n).isSuffixOf "</em>".data = false)
    (hd : ∀ n, 0 < n → n < (p0 :: pt).length →
      ((p0 :: pt).drop n).head? ≠ some '<') :
    ∀ l, occurs (p0 :: pt) (italStar l) = occurs (p0 :: pt) l := by
  have hp0 : p0 ≠ '*' := fun he => hm (he ▸ List.mem_cons_self p0 pt)
  have hpt : '*' ∉ pt := fun hc => hm (List.mem_cons_of_mem _ hc)
  have hsi : ∀ cs, pt.isPrefixOf (italStar cs) = pt.isPrefixOf cs :=
    starts_iff_generic italStar italStar_head pt
      (fun c cs hc => italStar_cons_pass c cs (fun he => hpt (he ▸ hc))) hw
  have hbdrop : ∀ n, 0 < n → n < (p0 :: pt).length →
      ((p0 :: pt).drop n).head? ≠ some '*' := by
    intro n _ _ hcon
    exact hm (List.drop_subset n (p0 :: pt) (head?_eq_mem _ _ hcon))
  have hnopref : ∀ xs : List Char, ¬ (p0 :: pt).isPrefixOf ('*' :: xs) = true := by
    intro xs hp
    have h3 := isPrefixOf_head (p0 :: pt) ('*' :: xs) (by simp) hp
    rw [List.head?_cons, List.head?_cons] at h3
    exact hp0 (Option.some.inj h3).symm
  have hocc_tick : ∀ xs : List Char,
      occurs (p0 :: pt) ('*' :: xs) = occurs (p0 :: pt) xs := by
    intro xs
    rw [occurs, if_neg (hnopref xs)]
    omega
  have main : ∀ n (l : List Char), l.length ≤ n →
      occurs (p0 :: pt) (italStar l) = occurs (p0 :: pt) l := by
    intro n
    induction n with
    | zero =>
      intro l hl
      have he : l = [] := List.length_eq_zero.mp (Nat.le_zero.mp hl)
      rw [he, italStar]
    | succ n ih =>
      intro l hl
      cases l with
      | nil => rw [italStar]
      | cons c cs =>
        rw [List.length_cons] at hl
        have hlcs : cs.length ≤ n := by omega
        by_cases h1 : c = '*'
        · by_cases h2 : cs.takeWhile (· ≠ '*') ≠ [] ∧ cs.dropWhile (· ≠ '*') ≠ []
          · subst h1
            rcases hrest : cs.dropWhile (· ≠ '*') with _ | ⟨r0, rt⟩
            · exact absurd hrest h2.2
            · have hr0 : r0 = '*' := by
                have := dropWhile_head_not (· ≠ '*') cs r0 rt hrest
                simpa using this
              subst hr0
              have hcs : cs.takeWhile (· ≠ '*') ++ '*' :: rt = cs := by
                have h0 : cs.takeWhile (· ≠ '*') ++ cs.dropWhile (· ≠ '*') = cs := by
                  simp
                rw [hrest] at h0
                exact h0
              have hrt : rt.length ≤ n := by
                have h4 := dropWhile_len_le (· ≠ '*') cs
                rw [hrest, List.length_cons] at h4
                omega
              have hout : italStar ('*' :: cs)
                  = "<em>".data ++ cs.takeWhile (· ≠ '*') ++ "</em>".data
                    ++ italStar rt := by
                rw [italStar, if_pos rfl, if_pos h2, hrest]
                simp only [List.tail_cons]
              rw [hout]
              have e1 : "<em>".data ++ cs.takeWhile (· ≠ '*') ++ "</em>".data
                    ++ italStar rt
                  = "<em>".data ++ (cs.takeWhile (· ≠ '*')
                    ++ ("</em>".data ++ italStar rt)) := by
                simp [List.append_assoc]
              rw [e1]
              have o1 := occurs_append_of_nocross (p0 :: pt) "<em>".data
                (cs.takeWhile (· ≠ '*') ++ ("</em>".data ++ italStar rt))
                (nocross_concrete_left _ _ _ hs1)
              have o2 := occurs_append_of_nocross (p0 :: pt) (cs.takeWhile (· ≠ '*'))
                ("</em>".data ++ italStar rt)
                (nocross_right_head _ _ _ '<' rfl hd)
              have o3 := occurs_append_of_nocross (p0 :: pt) "</em>".data (italStar rt)
                (nocross_concrete_left _ _ _ hs2)
              rw [o1, o2, o3, ht1, ht2, ih rt hrt, hocc_tick cs]
              have hin : occurs (p0 :: pt) cs
                  = occurs (p0 :: pt) (cs.takeWhile (· ≠ '*')) + occurs (p0 :: pt) rt := by
                conv_lhs => rw [← hcs]
                have i1 := occurs_append_of_nocross (p0 :: pt) (cs.takeWhile (· ≠ '*'))
                  ('*' :: rt) (nocross_right_head _ _ _ '*' rfl hbdrop)
                rw [i1, hocc_tick rt]
              rw [hin]
              omega
          · have hpass : italStar (c :: cs) = c :: italStar cs := by
              rw [italStar, if_pos h1, if_neg h2]
            rw [hpass, occurs, occurs,
              isPrefixOf_cons_congr italStar p0 pt hsi c cs, ih cs hlcs]
        · rw [italStar_cons_pass c cs h1, occurs, occurs,
            isPrefixOf_cons_congr italStar p0 pt hsi c cs, ih cs hlcs]
  intro l
  exact main l.length l (le_refl _)

theorem italStar_amp (l : List Char) :
    occurs "&amp;".data (italStar l) = occurs "&amp;".data l :=
  italStar_occurs '&' "amp;".data (by decide) (by decide) (by decide) (by decide)
    (by
      intro n h1 h2
      have h5 : ('&' :: "amp;".data).length = 5 := by decide
      rw [h5] at h2
      interval_cases n <;> decide)
    (by
      intro n h1 h2
      have h5 : ('&' :: "amp;".data).length = 5 := by decide
      rw [h5] at h2
      interval_cases n <;> decide)
    (by
      intro n h1 h2
      have h5 : ('&' :: "amp;".data).length = 5 := by decide
      rw [h5] at h2
      interval_cases n <;> decide)
    l

theorem italStar_sc (l : List Char) :
    occurs "<sc".data (italStar l) = occurs "<sc".data l :=
  italStar_occurs '<' "sc".data (by decide) (by decide) (by decide) (by decide)
    (by
      intro n h1 h2
      have h5 : ('<' :: "sc".data).length = 3 := by decide
      rw [h5] at h2
      interval_cases n <;> decide)
    (by
      intro n h1 h2
      have h5 : ('<' :: "sc".data).length = 3 := by decide
      rw [h5] at h2
      interval_cases n <;> decide)
    (by
      intro n h1 h2
      have h5 : ('<' :: "sc".data).length = 3 := by decide
      rw [h5] at h2
      interval_cases n <;> decide)
    l


/-- Any head character of `italUnder l` is a head character of `l` or comes
from an inserted tag (which starts with `<`). -/
theorem italUnder_head : ∀ (l : List Char) (h : Char),
    (italUnder l).head? = some h → l.head? = some h ∨ h = '<' ∨ h = '&' := by
  intro l h hh
  cases l with
  | nil =>
    rw [italUnder] at hh
    simp at hh
  | cons c cs =>
    by_cases h1 : c = '_'
    · by_cases h2 : cs.takeWhile (· ≠ '_') ≠ [] ∧ cs.dropWhile (· ≠ '_') ≠ []
      · subst h1
        rw [italUnder, if_pos rfl, if_pos h2] at hh
        right
        left
        have he : ("<em>".data ++ cs.takeWhile (· ≠ '_') ++ "</em>".data
            ++ italUnder (cs.dropWhile (· ≠ '_')).tail).head? = some '<' := rfl
        rw [he] at hh
        exact (Option.some.inj hh).symm
      · rw [italUnder, if_pos h1, if_neg h2, List.head?_cons] at hh
        rw [List.head?_cons]
        exact Or.inl hh
    · rw [italUnder_cons_pass c cs h1, List.head?_cons] at hh
      rw [List.head?_cons]
      exact Or.inl hh

/-- `italUnder` preserves the number of occurrences of any pattern that
avoids the `_` marker, whose tail is free of `<` and `&`, and that
cannot arise from or straddle the inserted `<em>`/`</em>` tags. -/
theorem italUnder_occurs (p0 : Char) (pt : List Char)
    (hm : '_' ∉ p0 :: pt)
    (hw : ∀ c ∈ pt, c ≠ '<' ∧ c ≠ '&')
    (ht1 : occurs (p0 :: pt) "<em>".data = 0)
    (ht2 : occurs (p0 :: pt) "</em>".data = 0)
    (hs1 : ∀ n, 0 < n → n < (p0 :: pt).length →
      ((p0 :: pt).take n).isSuffixOf "<em>".data = false)
    (hs2 : ∀ n, 0 < n → n < (p0 :: pt).length →
      ((p0 :: pt).take n).isSuffixOf "</em>".data = false)
    (hd : ∀ n, 0 < n → n < (p0 :: pt).length →
      ((p0 :: pt).drop n).head? ≠ some '<') :
    ∀ l, occurs (p0 :: pt) (italUnder l) = occurs (p0 :: pt) l := by
  have hp0 : p0 ≠ '_' := fun he => hm (he ▸ List.mem_cons_self p0 pt)
  have hpt : '_' ∉ pt := fun hc => hm (List.mem_cons_of_mem _ hc)
  have hsi : ∀ cs, pt.isPrefixOf (italUnder cs) = pt.isPrefixOf cs :=
    starts_iff_generic italUnder italUnder_head pt
      (fun c cs hc => italUnder_cons_pass c cs (fun he => hpt (he ▸ hc))) hw
  have hbdrop : ∀ n, 0 < n → n < (p0 :: pt).length →
      ((p0 :: pt).drop n).head? ≠ some '_' := by
    intro n _ _ hcon
    exact hm (List.drop_subset n (p0 :: pt) (head?_eq_mem _ _ hcon))
  have hnopref : ∀ xs : List Char, ¬ (p0 :: pt).isPrefixOf ('_' :: xs) = true := by
    intro xs hp
    have h3 := isPrefixOf_head (p0 :: pt) ('_' :: xs) (by simp) hp
    rw [List.head?_cons, List.head?_cons] at h3
    exact hp0 (Option.some.inj h3).symm
  have hocc_tick : ∀ xs : List Char,
      occurs (p0 :: pt) ('_' :: xs) = occurs (p0 :: pt) xs := by
    intro xs
    rw [occurs, if_neg (hnopref xs)]
    omega
  have main : ∀ n (l : List Char), l.length ≤ n →
      occurs (p0 :: pt) (italUnder l) = occurs (p0 :: pt) l := by
    intro n
    induction n with
    | zero =>
      intro l hl
      have he : l = [] := List.length_eq_zero.mp (Nat.le_zero.mp hl)
      rw [he, italUnder]
    | succ n ih =>
      intro l hl
      cases l with
      | nil => rw [italUnder]
      | cons c cs =>
        rw [List.length_cons] at hl
        have hlcs : cs.length ≤ n := by omega
        by_cases h1 : c = '_'
        · by_cases h2 : cs.takeWhile (· ≠ '_') ≠ [] ∧ cs.dropWhile (· ≠ '_') ≠ []
          · subst h1
            rcases hrest : cs.dropWhile (· ≠ '_') with _ | ⟨r0, rt⟩
            · exact absurd hrest h2.2
            · have hr0 : r0 = '_' := by
                have := dropWhile_head_not (· ≠ '_') cs r0 rt hrest
                simpa using this
              subst hr0
              have hcs : cs.takeWhile (· ≠ '_') ++ '_' :: rt = cs := by
                have h0 : cs.takeWhile (· ≠ '_') ++ cs.dropWhile (· ≠ '_') = cs := by
                  simp
                rw [hrest] at h0
                exact h0
              have hrt : rt.length ≤ n := by
                have h4 := dropWhile_len_le (· ≠ '_') cs
                rw [hrest, List.length_cons] at h4
                omega
              have hout : italUnder ('_' :: cs)
                  = "<em>".data ++ cs.takeWhile (· ≠ '_') ++ "</em>".data
                    ++ italUnder rt := by
                rw [italUnder, if_pos rfl, if_pos h2, hrest]
                simp only [List.tail_cons]
              rw [hout]
              have e1 : "<em>".data ++ cs.takeWhile (· ≠ '_') ++ "</em>".data
                    ++ italUnder rt
                  = "<em>".data ++ (cs.takeWhile (· ≠ '_')
                    ++ ("</em>".data ++ italUnder rt)) := by
                simp [List.append_assoc]
              rw [e1]
              have o1 := occurs_append_of_nocross (p0 :: pt) "<em>".data
                (cs.takeWhile (· ≠ '_') ++ ("</em>".data ++ italUnder rt))
                (nocross_concrete_left _ _ _ hs1)
              have o2 := occurs_append_of_nocross (p0 :: pt) (cs.takeWhile (· ≠ '_'))
                ("</em>".data ++ italUnder rt)
                (nocross_right_head _ _ _ '<' rfl hd)
              have o3 := occurs_append_of_nocross (p0 :: pt) "</em>".data (italUnder rt)
                (nocross_concrete_left _ _ _ hs2)
              rw [o1, o2, o3, ht1, ht2, ih rt hrt, hocc_tick cs]
              have hin : occurs (p0 :: pt) cs
                  = occurs (p0 :: pt) (cs.takeWhile (· ≠ '_')) + occurs (p0 :: pt) rt := by
                conv_lhs => rw [← hcs]
                have i1 := occurs_append_of_nocross (p0 :: pt) (cs.takeWhile (· ≠ '_'))
                  ('_' :: rt) (nocross_right_head _ _ _ '_' rfl hbdrop)
                rw [i1, hocc_tick rt]
              rw [hin]
              omega
          · have hpass : italUnder (c :: cs) = c :: italUnder cs := by
              rw [italUnder, if_pos h1, if_neg h2]
            rw [hpass, occurs, occurs,
              isPrefixOf_cons_congr italUnder p0 pt hsi c cs, ih cs hlcs]
        · rw [italUnder_cons_pass c cs h1, occurs, occurs,
            isPrefixOf_cons_congr italUnder p0 pt hsi c cs, ih cs hlcs]
  intro l
  exact main l.length l (le_refl _)

theorem italUnder_amp (l : List Char) :
    occurs "&amp;".data (italUnder l) = occurs "&amp;".data l :=
  italUnder_occurs '&' "amp;".data (by decide) (by decide) (by decide) (by decide)
    (by
      intro n h1 h2
      have h5 : ('&' :: "amp;".data).length = 5 := by decide
      rw [h5] at h2
      interval_cases n <;> decide)
    (by
      intro n h1 h2
      have h5 : ('&' :: "amp;".data).length = 5 := by decide
      rw [h5] at h2
      interval_cases n <;> decide)
    (by
      intro n h1 h2
      have h5 : ('&' :: "amp;".data).length = 5 := by decide
      rw [h5] at h2
      interval_cases n <;> decide)
    l

theorem italUnder_sc (l : List Char) :
    occurs "<sc".data (italUnder l) = occurs "<sc".data l :=
  italUnder_occurs '<' "sc".data (by decide) (by decide) (by decide) (by decide)
    (by
      intro n h1 h2
      have h5 : ('<' :: "sc".data).length = 3 := by decide
      rw [h5] at h2
      interval_cases n <;> decide)
    (by
      intro n h1 h2
      have h5 : ('<' :: "sc".data).length = 3 := by decide
      rw [h5] at h2
      interval_cases n <;> decide)
    (by
      intro n h1 h2
      have h5 : ('<' :: "sc".data).length = 3 := by decide
      rw [h5] at h2
      interval_cases n <;> decide)
    l



/-- Any head character of `boldStar l` is a head character of `l` or comes
from an inserted tag (which starts with `<`). -/
theorem boldStar_head : ∀ (l : List Char) (h : Char),
    (boldStar l).head? = some h → l.head? = some h ∨ h = '<' ∨ h = '&' := by
  intro l h hh
  cases l with
  | nil =>
    rw [boldStar] at hh
    simp at hh
  | cons c cs =>
    by_cases hcond : c = '*' ∧ "*".data.isPrefixOf cs = true
    · by_cases h2 : cs.tail.takeWhile (· ≠ '*') ≠ []
          ∧ "**".data.isPrefixOf (cs.tail.dropWhile (· ≠ '*')) = true
      · rw [boldStar, if_pos hcond, if_pos h2] at hh
        right
        left
        have he : ("<strong>".data ++ cs.tail.takeWhile (· ≠ '*') ++ "</strong>".data
            ++ boldStar ((cs.tail.dropWhile (· ≠ '*')).drop 2)).head? = some '<' := rfl
        rw [he] at hh
        exact (Option.some.inj hh).symm
      · rw [boldStar, if_pos hcond, if_neg h2, List.head?_cons] at hh
        rw [List.head?_cons]
        exact Or.inl hh
    · rw [boldStar_cons_pass c cs hcond, List.head?_cons] at hh
      rw [List.head?_cons]
      exact Or.inl hh

/-- `boldStar` preserves the number of occurrences of any pattern that
avoids the `*` marker, whose tail is free of `<` and `&`, and that cannot
arise from or straddle the inserted `<strong>`/`</strong>` tags. -/
theorem boldStar_occurs (p0 : Char) (pt : List Char)
    (hm : '*' ∉ p0 :: pt)
    (hw : ∀ c ∈ pt, c ≠ '<' ∧ c ≠ '&')
    (ht1 : occurs (p0 :: pt) "<strong>".data = 0)
    (ht2 : occurs (p0 :: pt) "</strong>".data = 0)
    (hs1 : ∀ n, 0 < n → n < (p0 :: pt).length →
      ((p0 :: pt).take n).isSuffixOf "<strong>".data = false)
    (hs2 : ∀ n, 0 < n → n < (p0 :: pt).length →
      ((p0 :: pt).take n).isSuffixOf "</strong>".data = false)
    (hd : ∀ n, 0 < n → n < (p0 :: pt).length →
      ((p0 :: pt).drop n).head? ≠ some '<') :
    ∀ l, occurs (p0 :: pt) (boldStar l) = occurs (p0 :: pt) l := by
  have hp0 : p0 ≠ '*' := fun he => hm (he ▸ List.mem_cons_self p0 pt)
  have hpt : '*' ∉ pt := fun hc => hm (List.mem_cons_of_mem _ hc)
  have hsi : ∀ cs, pt.isPrefixOf (boldStar cs) = pt.isPrefixOf cs :=
    starts_iff_generic boldStar boldStar_head pt
      (fun c cs hc => boldStar_cons_pass c cs (fun hcc => hpt (hcc.1 ▸ hc))) hw
  have hbdrop : ∀ n, 0 < n → n < (p0 :: pt).length →
      ((p0 :: pt).drop n).head? ≠ some '*' := by
    intro n _ _ hcon
    exact hm (List.drop_subset n (p0 :: pt) (head?_eq_mem _ _ hcon))
  have hnopref : ∀ xs : List Char, ¬ (p0 :: pt).isPrefixOf ('*' :: xs) = true := by
    intro xs hp
    have h3 := isPrefixOf_head (p0 :: pt) ('*' :: xs) (by simp) hp
    rw [List.head?_cons, List.head?_cons] at h3
    exact hp0 (Option.some.inj h3).symm
  have hocc_star : ∀ xs : List Char,
      occurs (p0 :: pt) ('*' :: xs) = occurs (p0 :: pt) xs := by
    intro xs
    rw [occurs, if_neg (hnopref xs)]
    omega
  have main : ∀ n (l : List Char), l.length ≤ n →
      occurs (p0 :: pt) (boldStar l) = occurs (p0 :: pt) l := by
    intro n
    induction n with
    | zero =>
      intro l hl
      have he : l = [] := List.length_eq_zero.mp (Nat.le_zero.mp hl)
      rw [he, boldStar]
    | succ n ih =>
      intro l hl
      cases l with
      | nil => rw [boldStar]
      | cons c cs =>
        rw [List.length_cons] at hl
        have hlcs : cs.length ≤ n := by omega
        by_cases hcond : c = '*' ∧ "*".data.isPrefixOf cs = true
        · obtain ⟨hc1, hc2⟩ := hcond
          subst hc1
          cases cs with
          | nil => simp [List.isPrefixOf] at hc2
          | cons c2 ct =>
            have hc2h : c2 = '*' := by
              have h0 := isPrefixOf_single_head '*' (c2 :: ct) hc2
              rw [List.head?_cons] at h0
              exact Option.some.inj h0
            subst hc2h
            rw [List.length_cons] at hl
            by_cases h2 : ct.takeWhile (· ≠ '*') ≠ []
                ∧ "**".data.isPrefixOf (ct.dropWhile (· ≠ '*')) = true
            · have h2b := h2.2
              rw [List.isPrefixOf_iff_prefix] at h2b
              rcases h2b with ⟨rt, hrt⟩
              have hrest : ct.dropWhile (· ≠ '*') = '*' :: '*' :: rt := by
                rw [← hrt]
                rfl
              have hcs : ct.takeWhile (· ≠ '*') ++ '*' :: '*' :: rt = ct := by
                have h0 : ct.takeWhile (· ≠ '*') ++ ct.dropWhile (· ≠ '*') = ct := by
                  simp
                rw [hrest] at h0
                exact h0
              have hrt2 : rt.length ≤ n := by
                have h4 := dropWhile_len_le (· ≠ '*') ct
                rw [hrest] at h4
                simp only [List.length_cons] at h4
                omega
              have hout : boldStar ('*' :: '*' :: ct)
                  = "<strong>".data ++ ct.takeWhile (· ≠ '*') ++ "</strong>".data
                    ++ boldStar rt := by
                rw [boldStar, if_pos ⟨rfl, hc2⟩]
                simp only [List.tail_cons]
                rw [if_pos h2, hrest]
                simp only [List.drop_succ_cons, List.drop_zero]
              rw [hout]
              have e1 : "<strong>".data ++ ct.takeWhile (· ≠ '*') ++ "</strong>".data
                    ++ boldStar rt
                  = "<strong>".data ++ (ct.takeWhile (· ≠ '*')
                    ++ ("</strong>".data ++ boldStar rt)) := by
                simp [List.append_assoc]
              rw [e1]
              have o1 := occurs_append_of_nocross (p0 :: pt) "<strong>".data
                (ct.takeWhile (· ≠ '*') ++ ("</strong>".data ++ boldStar rt))
                (nocross_concrete_left _ _ _ hs1)
              have o2 := occurs_append_of_nocross (p0 :: pt) (ct.takeWhile (· ≠ '*'))
                ("</strong>".data ++ boldStar rt)
                (nocross_right_head _ _ _ '<' rfl hd)
              have o3 := occurs_append_of_nocross (p0 :: pt) "</strong>".data (boldStar rt)
                (nocross_concrete_left _ _ _ hs2)
              rw [o1, o2, o3, ht1, ht2, ih rt hrt2, hocc_star ('*' :: ct), hocc_star ct]
              have hin : occurs (p0 :: pt) ct
                  = occurs (p0 :: pt) (ct.takeWhile (· ≠ '*')) + occurs (p0 :: pt) rt := by
                conv_lhs => rw [← hcs]
                have i1 := occurs_append_of_nocross (p0 :: pt) (ct.takeWhile (· ≠ '*'))
                  ('*' :: '*' :: rt) (nocross_right_head _ _ _ '*' rfl hbdrop)
                rw [i1, hocc_star ('*' :: rt), hocc_star rt]
              rw [hin]
              omega
            · have hpass : boldStar ('*' :: '*' :: ct) = '*' :: boldStar ('*' :: ct) := by
                rw [boldStar, if_pos ⟨rfl, hc2⟩]
                simp only [List.tail_cons]
                rw [if_neg h2]
              rw [hpass, occurs, occurs,
                isPrefixOf_cons_congr boldStar p0 pt hsi '*' ('*' :: ct),
                ih ('*' :: ct) (by simp only [List.length_cons]; omega)]
        · rw [boldStar_cons_pass c cs hcond, occurs, occurs,
            isPrefixOf_cons_congr boldStar p0 pt hsi c cs, ih cs hlcs]
  intro l
  exact main l.length l (le_refl _)

theorem boldStar_amp (l : List Char) :
    occurs "&amp;".data (boldStar l) = occurs "&amp;".data l :=
  boldStar_occurs '&' "amp;".data (by decide) (by decide) (by decide) (by decide)
    (by
      intro n h1 h2
      have h5 : ('&' :: "amp;".data).length = 5 := by decide
      rw [h5] at h2
      interval_cases n <;> decide)
    (by
      intro n h1 h2
      have h5 : ('&' :: "amp;".data).length = 5 := by decide
      rw [h5] at h2
      interval_cases n <;> decide)
    (by
      intro n h1 h2
      have h5 : ('&' :: "amp;".data).length = 5 := by decide
      rw [h5] at h2
      interval_cases n <;> decide)
    l

theorem boldStar_sc (l : List Char) :
    occurs "<sc".data (boldStar l) = occurs "<sc".data l :=
  boldStar_occurs '<' "sc".data (by decide) (by decide) (by decide) (by decide)
    (by
      intro n h1 h2
      have h5 : ('<' :: "sc".data).length = 3 := by decide
      rw [h5] at h2
      interval_cases n <;> decide)
    (by
      intro n h1 h2
      have h5 : ('<' :: "sc".data).length = 3 := by decide
      rw [h5] at h2
      interval_cases n <;> decide)
    (by
      intro n h1 h2
      have h5 : ('<' :: "sc".data).length = 3 := by decide
      rw [h5] at h2
      interval_cases n <;> decide)
    l


/-- Any head character of `boldUnder l` is a head character of `l` or comes
from an inserted tag (which starts with `<`). -/
theorem boldUnder_head : ∀ (l : List Char) (h : Char),
    (boldUnder l).head? = some h → l.head? = some h ∨ h = '<' ∨ h = '&' := by
  intro l h hh
  cases l with
  | nil =>
    rw [boldUnder] at hh
    simp at hh
  | cons c cs =>
    by_cases hcond : c = '_' ∧ "_".data.isPrefixOf cs = true
    · by_cases h2 : cs.tail.takeWhile (· ≠ '_') ≠ []
          ∧ "__".data.isPrefixOf (cs.tail.dropWhile (· ≠ '_')) = true
      · rw [boldUnder, if_pos hcond, if_pos h2] at hh
        right
        left
        have he : ("<strong>".data ++ cs.tail.takeWhile (· ≠ '_') ++ "</strong>".data
            ++ boldUnder ((cs.tail.dropWhile (· ≠ '_')).drop 2)).head? = some '<' := rfl
        rw [he] at hh
        exact (Option.some.inj hh).symm
      · rw [boldUnder, if_pos hcond, if_neg h2, List.head?_cons] at hh
        rw [List.head?_cons]
        exact Or.inl hh
    · rw [boldUnder_cons_pass c cs hcond, List.head?_cons] at hh
      rw [List.head?_cons]
      exact Or.inl hh

/-- `boldUnder` preserves the number of occurrences of any pattern that
avoids the `_` marker, whose tail is free of `<` and `&`, and that cannot
arise from or straddle the inserted `<strong>`/`</strong>` tags. -/
theorem boldUnder_occurs (p0 : Char) (pt : List Char)
    (hm : '_' ∉ p0 :: pt)
    (hw : ∀ c ∈ pt, c ≠ '<' ∧ c ≠ '&')
    (ht1 : occurs (p0 :: pt) "<strong>".data = 0)
    (ht2 : occurs (p0 :: pt) "</strong>".data = 0)
    (hs1 : ∀ n, 0 < n → n < (p0 :: pt).length →
      ((p0 :: pt).take n).isSuffixOf "<strong>".data = false)
    (hs2 : ∀ n, 0 < n → n < (p0 :: pt).length →
      ((p0 :: pt).take n).isSuffixOf "</strong>".data = false)
    (hd : ∀ n, 0 < n → n < (p0 :: pt).length →
      ((p0 :: pt).drop n).head? ≠ some '<') :
    ∀ l, occurs (p0 :: pt) (boldUnder l) = occurs (p0 :: pt) l := by
  have hp0 : p0 ≠ '_' := fun he => hm (he ▸ List.mem_cons_self p0 pt)
  have hpt : '_' ∉ pt := fun hc => hm (List.mem_cons_of_mem _ hc)
  have hsi : ∀ cs, pt.isPrefixOf (boldUnder cs) = pt.isPrefixOf cs :=
    starts_iff_generic boldUnder boldUnder_head pt
      (fun c cs hc => boldUnder_cons_pass c cs (fun hcc => hpt (hcc.1 ▸ hc))) hw
  have hbdrop : ∀ n, 0 < n → n < (p0 :: pt).length →
      ((p0 :: pt).drop n).head? ≠ some '_' := by
    intro n _ _ hcon
    exact hm (List.drop_subset n (p0 :: pt) (head?_eq_mem _ _ hcon))
  have hnopref : ∀ xs : List Char, ¬ (p0 :: pt).isPrefixOf ('_' :: xs) = true := by
    intro xs hp
    have h3 := isPrefixOf_head (p0 :: pt) ('_' :: xs) (by simp) hp
    rw [List.head?_cons, List.head?_cons] at h3
    exact hp0 (Option.some.inj h3).symm
  have hocc_star : ∀ xs : List Char,
      occurs (p0 :: pt) ('_' :: xs) = occurs (p0 :: pt) xs := by
    intro xs
    rw [occurs, if_neg (hnopref xs)]
    omega
  have main : ∀ n (l : List Char), l.length ≤ n →
      occurs (p0 :: pt) (boldUnder l) = occurs (p0 :: pt) l := by
    intro n
    induction n with
    | zero =>
      intro l hl
      have he : l = [] := List.length_eq_zero.mp (Nat.le_zero.mp hl)
      rw [he, boldUnder]
    | succ n ih =>
      intro l hl
      cases l with
      | nil => rw [boldUnder]
      | cons c cs =>
        rw [List.length_cons] at hl
        have hlcs : cs.length ≤ n := by omega
        by_cases hcond : c = '_' ∧ "_".data.isPrefixOf cs = true
        · obtain ⟨hc1, hc2⟩ := hcond
          subst hc1
          cases cs with
          | nil => simp [List.isPrefixOf] at hc2
          | cons c2 ct =>
            have hc2h : c2 = '_' := by
              have h0 := isPrefixOf_single_head '_' (c2 :: ct) hc2
              rw [List.head?_cons] at h0
              exact Option.some.inj h0
            subst hc2h
            rw [List.length_cons] at hl
            by_cases h2 : ct.takeWhile (· ≠ '_') ≠ []
                ∧ "__".data.isPrefixOf (ct.dropWhile (· ≠ '_')) = true
            · have h2b := h2.2
              rw [List.isPrefixOf_iff_prefix] at h2b
              rcases h2b with ⟨rt, hrt⟩
              have hrest : ct.dropWhile (· ≠ '_') = '_' :: '_' :: rt := by
                rw [← hrt]
                rfl
              have hcs : ct.takeWhile (· ≠ '_') ++ '_' :: '_' :: rt = ct := by
                have h0 : ct.takeWhile (· ≠ '_') ++ ct.dropWhile (· ≠ '_') = ct := by
                  simp
                rw [hrest] at h0
                exact h0
              have hrt2 : rt.length ≤ n := by
                have h4 := dropWhile_len_le (· ≠ '_') ct
                rw [hrest] at h4
                simp only [List.length_cons] at h4
                omega
              have hout : boldUnder ('_' :: '_' :: ct)
                  = "<strong>".data ++ ct.takeWhile (· ≠ '_') ++ "</strong>".data
                    ++ boldUnder rt := by
                rw [boldUnder, if_pos ⟨rfl, hc2⟩]
                simp only [List.tail_cons]
                rw [if_pos h2, hrest]
                simp only [List.drop_succ_cons, List.drop_zero]
              rw [hout]
              have e1 : "<strong>".data ++ ct.takeWhile (· ≠ '_') ++ "</strong>".data
                    ++ boldUnder rt
                  = "<strong>".data ++ (ct.takeWhile (· ≠ '_')
                    ++ ("</strong>".data ++ boldUnder rt)) := by
                simp [List.append_assoc]
              rw [e1]
              have o1 := occurs_append_of_nocross (p0 :: pt) "<strong>".data
                (ct.takeWhile (· ≠ '_') ++ ("</strong>".data ++ boldUnder rt))
                (nocross_concrete_left _ _ _ hs1)
              have o2 := occurs_append_of_nocross (p0 :: pt) (ct.takeWhile (· ≠ '_'))
                ("</strong>".data ++ boldUnder rt)
                (nocross_right_head _ _ _ '<' rfl hd)
              have o3 := occurs_append_of_nocross (p0 :: pt) "</strong>".data (boldUnder rt)
                (nocross_concrete_left _ _ _ hs2)
              rw [o1, o2, o3, ht1, ht2, ih rt hrt2, hocc_star ('_' :: ct), hocc_star ct]
              have hin : occurs (p0 :: pt) ct
                  = occurs (p0 :: pt) (ct.takeWhile (· ≠ '_')) + occurs (p0 :: pt) rt := by
                conv_lhs => rw [← hcs]
                have i1 := occurs_append_of_nocross (p0 :: pt) (ct.takeWhile (· ≠ '_'))
                  ('_' :: '_' :: rt) (nocross_right_head _ _ _ '_' rfl hbdrop)
                rw [i1, hocc_star ('_' :: rt), hocc_star rt]
              rw [hin]
              omega
            · have hpass : boldUnder ('_' :: '_' :: ct) = '_' :: boldUnder ('_' :: ct) := by
                rw [boldUnder, if_pos ⟨rfl, hc2⟩]
                simp only [List.tail_cons]
                rw [if_neg h2]
              rw [hpass, occurs, occurs,
                isPrefixOf_cons_congr boldUnder p0 pt hsi '_' ('_' :: ct),
                ih ('_' :: ct) (by simp only [List.length_cons]; omega)]
        · rw [boldUnder_cons_pass c cs hcond, occurs, occurs,
            isPrefixOf_cons_congr boldUnder p0 pt hsi c cs, ih cs hlcs]
  intro l
  exact main l.length l (le_refl _)

theorem boldUnder_amp (l : List Char) :
    occurs "&amp;".data (boldUnder l) = occurs "&amp;".data l :=
  boldUnder_occurs '&' "amp;".data (by decide) (by decide) (by decide) (by decide)
    (by
      intro n h1 h2
      have h5 : ('&' :: "amp;".data).length = 5 := by decide
      rw [h5] at h2
      interval_cases n <;> decide)
    (by
      intro n h1 h2
      have h5 : ('&' :: "amp;".data).length = 5 := by decide
      rw [h5] at h2
      interval_cases n <;> decide)
    (by
      intro n h1 h2
      have h5 : ('&' :: "amp;".data).length = 5 := by decide
      rw [h5] at h2
      interval_cases n <;> decide)
    l

theorem boldUnder_sc (l : List Char) :
    occurs "<sc".data (boldUnder l) = occurs "<sc".data l :=
  boldUnder_occurs '<' "sc".data (by decide) (by decide) (by decide) (by decide)
    (by
      intro n h1 h2
      have h5 : ('<' :: "sc".data).length = 3 := by decide
      rw [h5] at h2
      interval_cases n <;> decide)
    (by
      intro n h1 h2
      have h5 : ('<' :: "sc".data).length = 3 := by decide
      rw [h5] at h2
      interval_cases n <;> decide)
    (by
      intro n h1 h2
      have h5 : ('<' :: "sc".data).length = 3 := by decide
      rw [h5] at h2
      interval_cases n <;> decide)
    l


theorem mdashSub_cons_pass (c : Char) (cs : List Char)
    (h : ¬ (c = '-' ∧ "-".data.isPrefixOf cs = true)) :
    mdashSub (c :: cs) = c :: mdashSub cs := by
  rw [mdashSub, if_neg h]

/-- Any head character of `mdashSub l` is a head character of `l` or comes
from the inserted entity (which starts with `&`). -/
theorem mdashSub_head : ∀ (l : List Char) (h : Char),
    (mdashSub l).head? = some h → l.head? = some h ∨ h = '<' ∨ h = '&' := by
  intro l h hh
  cases l with
  | nil =>
    rw [mdashSub] at hh
    simp at hh
  | cons c cs =>
    by_cases hcond : c = '-' ∧ "-".data.isPrefixOf cs = true
    · rw [mdashSub, if_pos hcond] at hh
      right
      right
      have he : ("&mdash;".data ++ mdashSub cs.tail).head? = some '&' := rfl
      rw [he] at hh
      exact (Option.some.inj hh).symm
    · rw [mdashSub_cons_pass c cs hcond, List.head?_cons] at hh
      rw [List.head?_cons]
      exact Or.inl hh

/-- `mdashSub` preserves the number of occurrences of any pattern that
avoids the dash and cannot arise from or straddle the inserted `&mdash;`. -/
theorem mdashSub_occurs (p0 : Char) (pt : List Char)
    (hm : '-' ∉ p0 :: pt)
    (hw : ∀ c ∈ pt, c ≠ '<' ∧ c ≠ '&')
    (ht1 : occurs (p0 :: pt) "&mdash;".data = 0)
    (hs1 : ∀ n, 0 < n → n < (p0 :: pt).length →
      ((p0 :: pt).take n).isSuffixOf "&mdash;".data = false) :
    ∀ l, occurs (p0 :: pt) (mdashSub l) = occurs (p0 :: pt) l := by
  have hp0 : p0 ≠ '-' := fun he => hm (he ▸ List.mem_cons_self p0 pt)
  have hpt : '-' ∉ pt := fun hc => hm (List.mem_cons_of_mem _ hc)
  have hsi : ∀ cs, pt.isPrefixOf (mdashSub cs) = pt.isPrefixOf cs :=
    starts_iff_generic mdashSub mdashSub_head pt
      (fun c cs hc => mdashSub_cons_pass c cs (fun hcc => hpt (hcc.1 ▸ hc))) hw
  have hnopref : ∀ xs : List Char, ¬ (p0 :: pt).isPrefixOf ('-' :: xs) = true := by
    intro xs hp
    have h3 := isPrefixOf_head (p0 :: pt) ('-' :: xs) (by simp) hp
    rw [List.head?_cons, List.head?_cons] at h3
    exact hp0 (Option.some.inj h3).symm
  have hocc_dash : ∀ xs : List Char,
      occurs (p0 :: pt) ('-' :: xs) = occurs (p0 :: pt) xs := by
    intro xs
    rw [occurs, if_neg (hnopref xs)]
    omega
  have main : ∀ n (l : List Char), l.length ≤ n →
      occurs (p0 :: pt) (mdashSub l) = occurs (p0 :: pt) l := by
    intro n
    induction n with
    | zero =>
      intro l hl
      have he : l = [] := List.length_eq_zero.mp (Nat.le_zero.mp hl)
      rw [he, mdashSub]
    | succ n ih =>
      intro l hl
      cases l with
      | nil => rw [mdashSub]
      | cons c cs =>
        rw [List.length_cons] at hl
        have hlcs : cs.length ≤ n := by omega
        by_cases hcond : c = '-' ∧ "-".data.isPrefixOf cs = true
        · obtain ⟨hc1, hc2⟩ := hcond
          subst hc1
          cases cs with
          | nil => simp [List.isPrefixOf] at hc2
          | cons c2 ct =>
            have hc2h : c2 = '-' := by
              have h0 := isPrefixOf_single_head '-' (c2 :: ct) hc2
              rw [List.head?_cons] at h0
              exact Option.some.inj h0
            subst hc2h
            rw [List.length_cons] at hl
            have hout : mdashSub ('-' :: '-' :: ct) = "&mdash;".data ++ mdashSub ct := by
              rw [mdashSub, if_pos ⟨rfl, hc2⟩]
              simp only [List.tail_cons]
            rw [hout]
            have o1 := occurs_append_of_nocross (p0 :: pt) "&mdash;".data (mdashSub ct)
              (nocross_concrete_left _ _ _ hs1)
            rw [o1, ht1, ih ct (by omega), hocc_dash ('-' :: ct), hocc_dash ct]
            omega
        · rw [mdashSub_cons_pass c cs hcond, occurs, occurs,
            isPrefixOf_cons_congr mdashSub p0 pt hsi c cs, ih cs hlcs]
  intro l
  exact main l.length l (le_refl _)

theorem mdashSub_amp (l : List Char) :
    occurs "&amp;".data (mdashSub l) = occurs "&amp;".data l :=
  mdashSub_occurs '&' "amp;".data (by decide) (by decide) (by decide)
    (by
      intro n h1 h2
      have h5 : ('&' :: "amp;".data).length = 5 := by decide
      rw [h5] at h2
      interval_cases n <;> decide)
    l

theorem mdashSub_sc (l : List Char) :
    occurs "<sc".data (mdashSub l) = occurs "<sc".data l :=
  mdashSub_occurs '<' "sc".data (by decide) (by decide) (by decide)
    (by
      intro n h1 h2
      have h5 : ('<' :: "sc".data).length = 3 := by decide
      rw [h5] at h2
      interval_cases n <;> decide)
    l


/-- Any head character of `linkSub l` is a head character of `l` or comes
from an inserted tag (which starts with `<`). -/
theorem linkSub_head : ∀ (l : List Char) (h : Char),
    (linkSub l).head? = some h → l.head? = some h ∨ h = '<' ∨ h = '&' := by
  intro l h hh
  cases l with
  | nil =>
    rw [linkSub] at hh
    simp at hh
  | cons c cs =>
    by_cases h1 : c = '['
    · by_cases h2 : cs.takeWhile (· ≠ ']') ≠ []
          ∧ "](".data.isPrefixOf (cs.dropWhile (· ≠ ']')) = true
      · by_cases h3 : ((cs.dropWhile (· ≠ ']')).drop 2).takeWhile (· ≠ ')') ≠ []
            ∧ ((cs.dropWhile (· ≠ ']')).drop 2).dropWhile (· ≠ ')') ≠ []
        · rw [linkSub, if_pos h1, if_pos h2, if_pos h3] at hh
          right
          left
          have he : ("<a href=\"".data
              ++ ((cs.dropWhile (· ≠ ']')).drop 2).takeWhile (· ≠ ')') ++ "\">".data
              ++ cs.takeWhile (· ≠ ']') ++ "</a>".data
              ++ linkSub (((cs.dropWhile (· ≠ ']')).drop 2).dropWhile (· ≠ ')')).tail).head?
              = some '<' := rfl
          rw [he] at hh
          exact (Option.some.inj hh).symm
        · rw [linkSub, if_pos h1, if_pos h2, if_neg h3, List.head?_cons] at hh
          rw [List.head?_cons]
          exact Or.inl hh
      · rw [linkSub, if_pos h1, if_neg h2, List.head?_cons] at hh
        rw [List.head?_cons]
        exact Or.inl hh
    · rw [linkSub_cons_pass c cs h1, List.head?_cons] at hh
      rw [List.head?_cons]
      exact Or.inl hh

/-- `linkSub` preserves the number of occurrences of any pattern that
avoids the four bracket markers, whose tail is free of `<` and `&`, and
that cannot arise from or straddle the inserted anchor-tag pieces. -/
theorem linkSub_occurs (p0 : Char) (pt : List Char)
    (hms : ∀ c ∈ p0 :: pt, c ≠ '[' ∧ c ≠ ']' ∧ c ≠ '(' ∧ c ≠ ')')
    (hw : ∀ c ∈ pt, c ≠ '<' ∧ c ≠ '&')
    (ht1 : occurs (p0 :: pt) "<a href=\"".data = 0)
    (ht2 : occurs (p0 :: pt) "\">".data = 0)
    (ht3 : occurs (p0 :: pt) "</a>".data = 0)
    (hs1 : ∀ n, 0 < n → n < (p0 :: pt).length →
      ((p0 :: pt).take n).isSuffixOf "<a href=\"".data = false)
    (hs2 : ∀ n, 0 < n → n < (p0 :: pt).length →
      ((p0 :: pt).take n).isSuffixOf "\">".data = false)
    (hs3 : ∀ n, 0 < n → n < (p0 :: pt).length →
      ((p0 :: pt).take n).isSuffixOf "</a>".data = false)
    (hd : ∀ n, 0 < n → n < (p0 :: pt).length →
      ((p0 :: pt).drop n).head? ≠ some '<')
    (hd2 : ∀ n, 0 < n → n < (p0 :: pt).length →
      ((p0 :: pt).drop n).head? ≠ some '"') :
    ∀ l, occurs (p0 :: pt) (linkSub l) = occurs (p0 :: pt) l := by
  have hpLB : p0 ≠ '[' := fun he => (hms p0 (List.mem_cons_self p0 pt)).1 he
  have hpRB : p0 ≠ ']' := fun he => (hms p0 (List.mem_cons_self p0 pt)).2.1 he
  have hpLP : p0 ≠ '(' := fun he => (hms p0 (List.mem_cons_self p0 pt)).2.2.1 he
  have hpRP : p0 ≠ ')' := fun he => (hms p0 (List.mem_cons_self p0 pt)).2.2.2 he
  have hnRB : ']' ∉ p0 :: pt := fun hmm => (hms ']' hmm).2.1 rfl
  have hnRP : ')' ∉ p0 :: pt := fun hmm => (hms ')' hmm).2.2.2 rfl
  have hsi : ∀ cs, pt.isPrefixOf (linkSub cs) = pt.isPrefixOf cs :=
    starts_iff_generic linkSub linkSub_head pt
      (fun c cs hc =>
        linkSub_cons_pass c cs (fun he => (hms c (List.mem_cons_of_mem _ hc)).1 he)) hw
  have hnopref : ∀ (b : Char) (xs : List Char), p0 ≠ b →
      ¬ (p0 :: pt).isPrefixOf (b :: xs) = true := by
    intro b xs hb hp
    have h3 := isPrefixOf_head (p0 :: pt) (b :: xs) (by simp) hp
    rw [List.head?_cons, List.head?_cons] at h3
    exact hb (Option.some.inj h3).symm
  have hocc : ∀ (b : Char) (xs : List Char), p0 ≠ b →
      occurs (p0 :: pt) (b :: xs) = occurs (p0 :: pt) xs := by
    intro b xs hb
    rw [occurs, if_neg (hnopref b xs hb)]
    omega
  have hbdropgen : ∀ (b : Char), b ∉ p0 :: pt → ∀ n, 0 < n → n < (p0 :: pt).length →
      ((p0 :: pt).drop n).head? ≠ some b := by
    intro b hb n _ _ hcon
    exact hb (List.drop_subset n (p0 :: pt) (head?_eq_mem _ _ hcon))
  have hdRB := hbdropgen ']' hnRB
  have hdRP := hbdropgen ')' hnRP
  have main : ∀ n (l : List Char), l.length ≤ n →
      occurs (p0 :: pt) (linkSub l) = occurs (p0 :: pt) l := by
    intro n
    induction n with
    | zero =>
      intro l hl
      have he : l = [] := List.length_eq_zero.mp (Nat.le_zero.mp hl)
      rw [he, linkSub]
    | succ n ih =>
      intro l hl
      cases l with
      | nil => rw [linkSub]
      | cons c cs =>
        rw [List.length_cons] at hl
        have hlcs : cs.length ≤ n := by omega
        by_cases h1 : c = '['
        · subst h1
          by_cases h2 : cs.takeWhile (· ≠ ']') ≠ []
              ∧ "](".data.isPrefixOf (cs.dropWhile (· ≠ ']')) = true
          · have h2b := h2.2
            rw [List.isPrefixOf_iff_prefix] at h2b
            rcases h2b with ⟨r2, hr2⟩
            have hrest : cs.dropWhile (· ≠ ']') = ']' :: '(' :: r2 := by
              rw [← hr2]
              rfl
            by_cases h3 : r2.takeWhile (· ≠ ')') ≠ [] ∧ r2.dropWhile (· ≠ ')') ≠ []
            · rcases hr3 : r2.dropWhile (· ≠ ')') with _ | ⟨s0, rt⟩
              · exact absurd hr3 h3.2
              · have hs0 : s0 = ')' := by
                  have := dropWhile_head_not (· ≠ ')') r2 s0 rt hr3
                  simpa using this
                subst hs0
                have hr2split : r2.takeWhile (· ≠ ')') ++ ')' :: rt = r2 := by
                  have h0 : r2.takeWhile (· ≠ ')') ++ r2.dropWhile (· ≠ ')') = r2 := by
                    simp
                  rw [hr3] at h0
                  exact h0
                have hcssplit : cs.takeWhile (· ≠ ']') ++ ']' :: '(' :: r2 = cs := by
                  have h0 : cs.takeWhile (· ≠ ']') ++ cs.dropWhile (· ≠ ']') = cs := by
                    simp
                  rw [hrest] at h0
                  exact h0
                have hrtlen : rt.length ≤ n := by
                  have h4 := dropWhile_len_le (· ≠ ']') cs
                  rw [hrest] at h4
                  simp only [List.length_cons] at h4
                  have h5 := dropWhile_len_le (· ≠ ')') r2
                  rw [hr3] at h5
                  simp only [List.length_cons] at h5
                  omega
                have hout : linkSub ('[' :: cs)
                    = "<a href=\"".data ++ r2.takeWhile (· ≠ ')') ++ "\">".data
                      ++ cs.takeWhile (· ≠ ']') ++ "</a>".data ++ linkSub rt := by
                  rw [linkSub, if_pos rfl, if_pos h2, hrest]
                  simp only [List.drop_succ_cons, List.drop_zero]
                  rw [if_pos h3, hr3]
                  simp only [List.tail_cons]
                rw [hout]
                have e1 : "<a href=\"".data ++ r2.takeWhile (· ≠ ')') ++ "\">".data
                      ++ cs.takeWhile (· ≠ ']') ++ "</a>".data ++ linkSub rt
                    = "<a href=\"".data ++ (r2.takeWhile (· ≠ ')') ++ ("\">".data
                      ++ (cs.takeWhile (· ≠ ']') ++ ("</a>".data ++ linkSub rt)))) := by
                  simp [List.append_assoc]
                rw [e1]
                have o1 := occurs_append_of_nocross (p0 :: pt) "<a href=\"".data
                  (r2.takeWhile (· ≠ ')') ++ ("\">".data
                    ++ (cs.takeWhile (· ≠ ']') ++ ("</a>".data ++ linkSub rt))))
                  (nocross_concrete_left _ _ _ hs1)
                have o2 := occurs_append_of_nocross (p0 :: pt) (r2.takeWhile (· ≠ ')'))
                  ("\">".data ++ (cs.takeWhile (· ≠ ']') ++ ("</a>".data ++ linkSub rt)))
                  (nocross_right_head _ _ _ '"' rfl hd2)
                have o3 := occurs_append_of_nocross (p0 :: pt) "\">".data
                  (cs.takeWhile (· ≠ ']') ++ ("</a>".data ++ linkSub rt))
                  (nocross_concrete_left _ _ _ hs2)
                have o4 := occurs_append_of_nocross (p0 :: pt) (cs.takeWhile (· ≠ ']'))
                  ("</a>".data ++ linkSub rt)
                  (nocross_right_head _ _ _ '<' rfl hd)
                have o5 := occurs_append_of_nocross (p0 :: pt) "</a>".data (linkSub rt)
                  (nocross_concrete_left _ _ _ hs3)
                rw [o1, o2, o3, o4, o5, ht1, ht2, ht3, ih rt hrtlen]
                have hin : occurs (p0 :: pt) cs
                    = occurs (p0 :: pt) (cs.takeWhile (· ≠ ']'))
                      + occurs (p0 :: pt) (r2.takeWhile (· ≠ ')'))
                      + occurs (p0 :: pt) rt := by
                  conv_lhs => rw [← hcssplit]
                  have i1 := occurs_append_of_nocross (p0 :: pt) (cs.takeWhile (· ≠ ']'))
                    (']' :: '(' :: r2) (nocross_right_head _ _ _ ']' rfl hdRB)
                  rw [i1, hocc ']' ('(' :: r2) hpRB, hocc '(' r2 hpLP]
                  have hin2 : occurs (p0 :: pt) r2
                      = occurs (p0 :: pt) (r2.takeWhile (· ≠ ')'))
                        + occurs (p0 :: pt) rt := by
                    conv_lhs => rw [← hr2split]
                    have i2 := occurs_append_of_nocross (p0 :: pt) (r2.takeWhile (· ≠ ')'))
                      (')' :: rt) (nocross_right_head _ _ _ ')' rfl hdRP)
                    rw [i2, hocc ')' rt hpRP]
                  rw [hin2]
                  omega
                rw [hocc '[' cs hpLB, hin]
                omega
            · have hpass : linkSub ('[' :: cs) = '[' :: linkSub cs := by
                rw [linkSub, if_pos rfl, if_pos h2, hrest]
                simp only [List.drop_succ_cons, List.drop_zero]
                rw [if_neg h3]
              rw [hpass, occurs, occurs,
                isPrefixOf_cons_congr linkSub p0 pt hsi '[' cs, ih cs hlcs]
          · have hpass : linkSub ('[' :: cs) = '[' :: linkSub cs := by
              rw [linkSub, if_pos rfl, if_neg h2]
            rw [hpass, occurs, occurs,
              isPrefixOf_cons_congr linkSub p0 pt hsi '[' cs, ih cs hlcs]
        · rw [linkSub_cons_pass c cs h1, occurs, occurs,
            isPrefixOf_cons_congr linkSub p0 pt hsi c cs, ih cs hlcs]
  intro l
  exact main l.length l (le_refl _)

theorem linkSub_amp (l : List Char) :
    occurs "&amp;".data (linkSub l) = occurs "&amp;".data l :=
  linkSub_occurs '&' "amp;".data (by decide) (by decide) (by decide) (by decide) (by decide)
    (by
      intro n h1 h2
      have h5 : ('&' :: "amp;".data).length = 5 := by decide
      rw [h5] at h2
      interval_cases n <;> decide)
    (by
      intro n h1 h2
      have h5 : ('&' :: "amp;".data).length = 5 := by decide
      rw [h5] at h2
      interval_cases n <;> decide)
    (by
      intro n h1 h2
      have h5 : ('&' :: "amp;".data).length = 5 := by decide
      rw [h5] at h2
      interval_cases n <;> decide)
    (by
      intro n h1 h2
      have h5 : ('&' :: "amp;".data).length = 5 := by decide
      rw [h5] at h2
      interval_cases n <;> decide)
    (by
      intro n h1 h2
      have h5 : ('&' :: "amp;".data).length = 5 := by decide
      rw [h5] at h2
      interval_cases n <;> decide)
    l

theorem linkSub_sc (l : List Char) :
    occurs "<sc".data (linkSub l) = occurs "<sc".data l :=
  linkSub_occurs '<' "sc".data (by decide) (by decide) (by decide) (by decide) (by decide)
    (by
      intro n h1 h2
      have h5 : ('<' :: "sc".data).length = 3 := by decide
      rw [h5] at h2
      interval_cases n <;> decide)
    (by
      intro n h1 h2
      have h5 : ('<' :: "sc".data).length = 3 := by decide
      rw [h5] at h2
      interval_cases n <;> decide)
    (by
      intro n h1 h2
      have h5 : ('<' :: "sc".data).length = 3 := by decide
      rw [h5] at h2
      interval_cases n <;> decide)
    (by
      intro n h1 h2
      have h5 : ('<' :: "sc".data).length = 3 := by decide
      rw [h5] at h2
      interval_cases n <;> decide)
    (by
      intro n h1 h2
      have h5 : ('<' :: "sc".data).length = 3 := by decide
      rw [h5] at h2
      interval_cases n <;> decide)
    l


/-- The single-character escape of a plain (non-special) character holds no
occurrence of `&amp;`. -/
theorem amp_single (d : Char) : occurs "&amp;".data [d] = 0 := by
  have hp : "&amp;".data.isPrefixOf [d] = false := by
    show (('&' == d) && ("amp;".data.isPrefixOf ([] : List Char))) = false
    rw [show ("amp;".data.isPrefixOf ([] : List Char)) = false from rfl]
    simp
  rw [occurs, occurs, if_neg (by simp [hp])]

/-- `html.escape` turns each source `&` into exactly one occurrence of
`&amp;`: the escaped text holds precisely as many `&amp;` substrings as the
source held `&` characters (no occurrence is lost, created, or doubled). -/
theorem escape_amp (t : List Char) :
    occurs "&amp;".data (htmlEscapeL t) = t.count '&' := by
  induction t with
  | nil =>
    rw [htmlEscapeL]
    rfl
  | cons c cs ih =>
    rw [htmlEscapeL]
    have hsplit : occurs "&amp;".data (escapeChar c ++ htmlEscapeL cs)
        = occurs "&amp;".data (escapeChar c) + occurs "&amp;".data (htmlEscapeL cs) := by
      apply occurs_append_of_nocross
      by_cases h1 : c = '&'
      · subst h1
        rw [show escapeChar '&' = "&amp;".data from rfl]
        exact nocross_concrete_left _ _ _ (by
          intro n hn1 hn2
          have h5 : ("&amp;".data).length = 5 := by decide
          rw [h5] at hn2
          interval_cases n <;> decide)
      by_cases h2 : c = '<'
      · subst h2
        rw [show escapeChar '<' = "&lt;".data from rfl]
        exact nocross_concrete_left _ _ _ (by
          intro n hn1 hn2
          have h5 : ("&amp;".data).length = 5 := by decide
          rw [h5] at hn2
          interval_cases n <;> decide)
      by_cases h3 : c = '>'
      · subst h3
        rw [show escapeChar '>' = "&gt;".data from rfl]
        exact nocross_concrete_left _ _ _ (by
          intro n hn1 hn2
          have h5 : ("&amp;".data).length = 5 := by decide
          rw [h5] at hn2
          interval_cases n <;> decide)
      by_cases h4 : c = '"'
      · subst h4
        rw [show escapeChar '"' = "&quot;".data from rfl]
        exact nocross_concrete_left _ _ _ (by
          intro n hn1 hn2
          have h5 : ("&amp;".data).length = 5 := by decide
          rw [h5] at hn2
          interval_cases n <;> decide)
      by_cases h5 : c = '\''
      · subst h5
        rw [show escapeChar '\'' = "&#x27;".data from rfl]
        exact nocross_concrete_left _ _ _ (by
          intro n hn1 hn2
          have h6 : ("&amp;".data).length = 5 := by decide
          rw [h6] at hn2
          interval_cases n <;> decide)
      · rw [escapeChar_id c ⟨h1, h2, h3, h4, h5⟩]
        exact nocross_singleton_left _ _ _ (by
          intro hcon
          exact h1 (Option.some.inj hcon).symm)
    rw [hsplit, ih]
    by_cases h1 : c = '&'
    · subst h1
      rw [show escapeChar '&' = "&amp;".data from rfl,
        show occurs "&amp;".data "&amp;".data = 1 from by decide]
      rw [List.count_cons]
      simp
      omega
    by_cases h2 : c = '<'
    · subst h2
      rw [show escapeChar '<' = "&lt;".data from rfl,
        show occurs "&amp;".data "&lt;".data = 0 from by decide]
      rw [List.count_cons]
      simp
    by_cases h3 : c = '>'
    · subst h3
      rw [show escapeChar '>' = "&gt;".data from rfl,
        show occurs "&amp;".data "&gt;".data = 0 from by decide]
      rw [List.count_cons]
      simp
    by_cases h4 : c = '"'
    · subst h4
      rw [show escapeChar '"' = "&quot;".data from rfl,
        show occurs "&amp;".data "&quot;".data = 0 from by decide]
      rw [List.count_cons]
      simp
    by_cases h5 : c = '\''
    · subst h5
      rw [show escapeChar '\'' = "&#x27;".data from rfl,
        show occurs "&amp;".data "&#x27;".data = 0 from by decide]
      rw [List.count_cons]
      simp
    · rw [escapeChar_id c ⟨h1, h2, h3, h4, h5⟩, amp_single c, List.count_cons]
      have hbe : (c == '&') = false := beq_eq_false_iff_ne.mpr h1
      rw [hbe]
      simp

/-- The escaped text holds no `<` at all, hence no occurrence of `<sc`. -/
theorem escape_ltsc (t : List Char) : occurs "<sc".data (htmlEscapeL t) = 0 :=
  occurs_eq_zero_head '<' "sc".data (htmlEscapeL t) (escape_no_lt t)

/-- Through the whole inline pipeline, each source `&` surfaces as exactly
one `&amp;` occurrence. -/
theorem processInline_amp (t : List Char) :
    occurs "&amp;".data (processInlineL t) = t.count '&' := by
  rw [processInlineL, mdashSub_amp, linkSub_amp, italUnder_amp, italStar_amp,
    boldUnder_amp, boldStar_amp, codeSub_amp, escape_amp]

/-- The inline pipeline emits no occurrence of `<sc` (prefix of
`<script>`): the escape pass removes every raw `<` and the substitutions
only insert fixed tags. -/
theorem processInline_ltsc (t : List Char) :
    occurs "<sc".data (processInlineL t) = 0 := by
  rw [processInlineL, mdashSub_sc, linkSub_sc, italUnder_sc, italStar_sc,
    boldUnder_sc, boldStar_sc, codeSub_sc, escape_ltsc]


/-- A tag-wrapped line `T1 ++ mid ++ T2` holds no `<sc` when neither tag
holds one, the middle holds none, and the pattern cannot straddle either
boundary. -/
theorem wrap_sc (T1 mid T2 : List Char)
    (h1 : occurs "<sc".data T1 = 0) (h2 : occurs "<sc".data T2 = 0)
    (hm : occurs "<sc".data mid = 0)
    (hs1 : (("<sc".data).take 1).isSuffixOf T1 = false
         ∧ (("<sc".data).take 2).isSuffixOf T1 = false)
    (hp2 : (("<sc".data).drop 1).isPrefixOf T2 = false
         ∧ (("<sc".data).drop 2).isPrefixOf T2 = false) :
    occurs "<sc".data (T1 ++ mid ++ T2) = 0 := by
  have hs1h : ∀ n, 0 < n → n < ("<sc".data).length →
      (("<sc".data).take n).isSuffixOf T1 = false := by
    intro n hn1 hn2
    have h5 : ("<sc".data).length = 3 := by decide
    rw [h5] at hn2
    interval_cases n
    · exact hs1.1
    · exact hs1.2
  have hp2h : ∀ n, 0 < n → n < ("<sc".data).length →
      (("<sc".data).drop n).isPrefixOf T2 = false := by
    intro n hn1 hn2
    have h5 : ("<sc".data).length = 3 := by decide
    rw [h5] at hn2
    interval_cases n
    · exact hp2.1
    · exact hp2.2
  have e1 : T1 ++ mid ++ T2 = T1 ++ (mid ++ T2) := by
    simp [List.append_assoc]
  have o1 := occurs_append_of_nocross "<sc".data T1 (mid ++ T2)
    (nocross_concrete_left _ _ _ hs1h)
  have o2 := occurs_append_of_nocross "<sc".data mid T2
    (nocross_right_concrete _ _ _ hp2h)
  rw [e1, o1, o2, h1, h2, hm]

/-- Joining `<sc`-free blocks with the `"\n" + 16 spaces` separator keeps
the result `<sc`-free. -/
theorem intercalate_sc (ls : List (List Char))
    (h : ∀ l ∈ ls, occurs "<sc".data l = 0) :
    occurs "<sc".data (List.intercalate "\n                ".data ls) = 0 := by
  induction ls with
  | nil =>
    rw [show List.intercalate "\n                ".data [] = [] from by
      simp [List.intercalate]]
    rfl
  | cons a t ih =>
    cases t with
    | nil =>
      rw [show List.intercalate "\n                ".data [a] = a from by
        simp [List.intercalate]]
      exact h a (by simp)
    | cons b t2 =>
      have hrest : List.intercalate "\n                ".data (a :: b :: t2)
          = a ++ ("\n                ".data
            ++ List.intercalate "\n                ".data (b :: t2)) := by
        simp [List.intercalate]
      rw [hrest]
      have o1 := occurs_append_of_nocross "<sc".data a
        ("\n                ".data ++ List.intercalate "\n                ".data (b :: t2))
        (nocross_right_head _ _ _ '\n' rfl (by
          intro m hm1 hm2
          have h5 : ("<sc".data).length = 3 := by decide
          rw [h5] at hm2
          interval_cases m <;> decide))
      have o2 := occurs_append_of_nocross "<sc".data "\n                ".data
        (List.intercalate "\n                ".data (b :: t2))
        (nocross_concrete_left _ _ _ (by
          intro m hm1 hm2
          have h5 : ("<sc".data).length = 3 := by decide
          rw [h5] at hm2
          interval_cases m <;> decide))
      rw [o1, o2, h a (by simp),
        show occurs "<sc".data "\n                ".data = 0 from by decide,
        ih (fun l hl => h l (List.mem_cons_of_mem _ hl))]

/-- The non-fence, non-code step of the `markdown_to_html` loop, written
out as one equation (the `let`s of the source inlined). -/
theorem mdLines_dispatch (line : List Char) (rest : List (List Char)) (inList : Bool)
    (buf : List (List Char)) (hf : ¬ "```".data.isPrefixOf line = true) :
    mdLines (line :: rest) inList false buf
      = (if inList = true ∧ ¬ bulletLine (pyStrip line) = true
          then ["</ul>".data] else []) ++
        (if "# ".data.isPrefixOf line then
           mdLines rest (inList && bulletLine (pyStrip line)) false []
         else if "## ".data.isPrefixOf line then
           ("<h2>".data ++ processInlineL (line.drop 3) ++ "</h2>".data)
             :: mdLines rest (inList && bulletLine (pyStrip line)) false []
         else if "### ".data.isPrefixOf line then
           ("<h3>".data ++ processInlineL (line.drop 4) ++ "</h3>".data)
             :: mdLines rest (inList && bulletLine (pyStrip line)) false []
         else if hrLine (pyStrip line) then
           "<hr>".data :: mdLines rest (inList && bulletLine (pyStrip line)) false []
         else if bulletLine (pyStrip line) then
           (if inList then ([] : List (List Char)) else ["<ul>".data]) ++
             ("<li>".data ++ processInlineL ((pyStrip line).drop 2) ++ "</li>".data)
               :: mdLines rest true false []
         else if "> ".data.isPrefixOf line then
           ("<blockquote><p>".data ++ processInlineL (line.drop 2)
               ++ "</p></blockquote>".data)
             :: mdLines rest (inList && bulletLine (pyStrip line)) false []
         else if imageMatch line then
           (match imgParse line with
            | some (alt, src) => [figLine alt src]
            | none => []) ++ mdLines rest (inList && bulletLine (pyStrip line)) false []
         else if pyStrip line = [] then
           ([] : List Char) :: mdLines rest (inList && bulletLine (pyStrip line)) false []
         else
           ("<p>".data
               ++ processInlineL (List.intercalate [' '] (line :: rest.takeWhile paraCont))
               ++ "</p>".data)
             :: mdLines (rest.dropWhile paraCont)
                 (inList && bulletLine (pyStrip line)) false []) := by
  rw [mdLines]
  simp [hf]

/-- Every line the `markdown_to_html` loop emits is free of the substring
`<sc` (hence of `<script>`), provided no input line matches the image
pattern: tags are fixed `<sc`-free strings, inline content goes through
`process_inline` (which escapes every `<`), and fenced content is escaped
wholesale. -/
theorem mdOut_ltsc : ∀ (n : ℕ) (ls : List (List Char)) (inList inCode : Bool)
    (buf : List (List Char)), ls.length ≤ n →
    (∀ l ∈ ls, imageMatch l = false) →
    ∀ out ∈ mdLines ls inList inCode buf, occurs "<sc".data out = 0 := by
  intro n
  induction n with
  | zero =>
    intro ls inList inCode buf hl himg out hout
    have he : ls = [] := List.length_eq_zero.mp (Nat.le_zero.mp hl)
    subst he
    rw [mdLines_nil] at hout
    cases inList with
    | false => simp at hout
    | true =>
      simp at hout
      subst hout
      decide
  | succ n ih =>
    intro ls inList inCode buf hl himg out hout
    cases ls with
    | nil =>
      rw [mdLines_nil] at hout
      cases inList with
      | false => simp at hout
      | true =>
        simp at hout
        subst hout
        decide
    | cons line rest =>
      rw [List.length_cons] at hl
      have hlr : rest.length ≤ n := by omega
      have himgr : ∀ l ∈ rest, imageMatch l = false :=
        fun l hlm => himg l (List.mem_cons_of_mem _ hlm)
      by_cases hf : "```".data.isPrefixOf line = true
      · cases inCode with
        | true =>
          rw [mdLines_fence_close line rest inList buf hf] at hout
          rcases List.mem_cons.mp hout with h | h
          · subst h
            exact wrap_sc _ _ _ (by decide) (by decide) (escape_ltsc _)
              (by decide) (by decide)
          · exact ih rest inList false [] hlr himgr out h
        | false =>
          rw [mdLines_fence_open line rest inList buf hf] at hout
          exact ih rest inList true buf hlr himgr out hout
      · cases inCode with
        | true =>
          rw [mdLines_buffer line rest inList buf hf] at hout
          exact ih rest inList true (buf ++ [line]) hlr himgr out hout
        | false =>
          rw [mdLines_dispatch line rest inList buf hf] at hout
          rcases List.mem_append.mp hout with h | h
          · by_cases hc : inList = true ∧ ¬ bulletLine (pyStrip line) = true
            · rw [if_pos hc] at h
              simp at h
              subst h
              decide
            · rw [if_neg hc] at h
              simp at h
          · by_cases hh1 : "# ".data.isPrefixOf line = true
            · rw [if_pos hh1] at h
              exact ih rest _ false [] hlr himgr out h
            rw [if_neg hh1] at h
            by_cases hh2 : "## ".data.isPrefixOf line = true
            · rw [if_pos hh2] at h
              rcases List.mem_cons.mp h with h | h
              · subst h
                exact wrap_sc _ _ _ (by decide) (by decide) (processInline_ltsc _)
                  (by decide) (by decide)
              · exact ih rest _ false [] hlr himgr out h
            rw [if_neg hh2] at h
            by_cases hh3 : "### ".data.isPrefixOf line = true
            · rw [if_pos hh3] at h
              rcases List.mem_cons.mp h with h | h
              · subst h
                exact wrap_sc _ _ _ (by decide) (by decide) (processInline_ltsc _)
                  (by decide) (by decide)
              · exact ih rest _ false [] hlr himgr out h
            rw [if_neg hh3] at h
            by_cases hh4 : hrLine (pyStrip line) = true
            · rw [if_pos hh4] at h
              rcases List.mem_cons.mp h with h | h
              · subst h
                decide
              · exact ih rest _ false [] hlr himgr out h
            rw [if_neg hh4] at h
            by_cases hh5 : bulletLine (pyStrip line) = true
            · rw [if_pos hh5] at h
              rcases List.mem_append.mp h with h | h
              · cases inList with
                | true => simp at h
                | false =>
                  simp at h
                  subst h
                  decide
              · rcases List.mem_cons.mp h with h | h
                · subst h
                  exact wrap_sc _ _ _ (by decide) (by decide) (processInline_ltsc _)
                    (by decide) (by decide)
                · exact ih rest true false [] hlr himgr out h
            rw [if_neg hh5] at h
            by_cases hh6 : "> ".data.isPrefixOf line = true
            · rw [if_pos hh6] at h
              rcases List.mem_cons.mp h with h | h
              · subst h
                exact wrap_sc _ _ _ (by decide) (by decide) (processInline_ltsc _)
                  (by decide) (by decide)
              · exact ih rest _ false [] hlr himgr out h
            rw [if_neg hh6] at h
            have himgline : imageMatch line = false := himg line (List.mem_cons_self line rest)
            rw [if_neg (by simp [himgline])] at h
            by_cases hh8 : pyStrip line = []
            · rw [if_pos hh8] at h
              rcases List.mem_cons.mp h with h | h
              · subst h
                rfl
              · exact ih rest _ false [] hlr himgr out h
            rw [if_neg hh8] at h
            rcases List.mem_cons.mp h with h | h
            · subst h
              exact wrap_sc _ _ _ (by decide) (by decide) (processInline_ltsc _)
                (by decide) (by decide)
            · have hlen2 : (rest.dropWhile paraCont).length ≤ n := by
                have := dropWhile_len_le paraCont rest
                omega
              exact ih (rest.dropWhile paraCont) _ false [] hlen2
                (fun l hlm => himgr l (mem_of_mem_dropWhile paraCont rest l hlm)) out h


/-- When no input line matches the image pattern, the produced HTML is free
of the substring `<sc`. -/
theorem markdown_ltsc (md : String)
    (h : ∀ l ∈ splitNL md.data, imageMatch l = false) :
    occurs "<sc".data (markdown_to_html md).data = 0 := by
  rw [markdown_to_html]
  exact intercalate_sc _ (fun l hl =>
    mdOut_ltsc (splitNL md.data).length (splitNL md.data) false false []
      (le_refl _) h l hl)

/-- C1 counterexample: the image branch of `markdown_to_html` interpolates
the alt text raw (no escaping), so a body whose single line is
`![<script>](x)` produces HTML that contains the raw substring `<script>`
— the claim's "including the image branch" clause is false. -/
theorem c1_counterexample :
    markdown_to_html "![<script>](x)"
      = "<figure><img src=\"x\" alt=\"<script>\"><figcaption><script></figcaption></figure>"
    ∧ occurs "<script>".data
        "<figure><img src=\"x\" alt=\"<script>\"><figcaption><script></figcaption></figure>".data
      ≠ 0 := by
  constructor
  · simp [markdown_to_html, splitNL, mdLines, pyStrip, bulletLine, hrLine, paraCont,
      imageMatch, imgParse, imgSplit, figLine, List.intercalate, pyWS]
  · decide

/-- C1 (amended): outside the image branch the escaping claim holds.
(i) For every markdown body none of whose lines matches the image pattern,
the HTML produced by `markdown_to_html` never contains the raw substring
`<script>` — every inline fragment is HTML-escaped before markup tags are
added and fenced code is escaped wholesale.  (ii) `process_inline` turns
each source `&` into exactly one `&amp;` occurrence — never zero, never
double-escaped — whatever bold/italic/code/link/dash markers surround it.
The unamended claim extends (i) to bodies with image lines, which is
refuted by `markdown_to_html "![<script>](x)"`: the image branch
interpolates alt and src raw. -/
theorem c1_escaping :
    (∀ md : String, (∀ l ∈ splitNL md.data, imageMatch l = false) →
        occurs "<script>".data (markdown_to_html md).data = 0)
    ∧ (∀ t : String, occurs "&amp;".data (process_inline t).data = t.data.count '&') := by
  constructor
  · intro md h
    exact occurs_mono_pre "<sc".data "<script>".data _ (by decide) (markdown_ltsc md h)
  · intro t
    exact processInline_amp t.data

/-- C1 witness: a body with an ampersand next to italic markers and an
em-dash trigger contains no `<script>` in its HTML, and `process_inline`
emits exactly one `&amp;` for the one `&` of `x&y`. -/
theorem c1_escaping_witness :
    (∀ l ∈ splitNL "a & *b* --".data, imageMatch l = false)
    ∧ occurs "<script>".data (markdown_to_html "a & *b* --").data = 0
    ∧ occurs "&amp;".data (process_inline "x&y").data = "x&y".data.count '&' :=
  ⟨by decide, c1_escaping.1 "a & *b* --" (by decide), c1_escaping.2 "x&y"⟩

end Publish
